import Mathlib

/-!
Verification development for the todo_md core: calendar arithmetic,
recurrence parsing and next-occurrence computation, the task-line codec,
document-level validation/parsing, and the two-snapshot differ.

The embedding models:
- chrono `NaiveDate` as a civil triple `Ymd` (year, month, day); `NaiveDateTime`
  as `Ndt` (a date plus seconds-of-day).  Adding `k` days is the `k`-fold civil
  successor, which agrees with chrono's day-number arithmetic on valid dates.
- `DateTime<Utc>` values as their civil UTC form (`Ndt`); the ambient `Local`
  timezone of chrono is modelled as an explicitly supplied fixed offset in
  seconds (the code reads it from the system; making it a parameter exposes
  that dependence).  chrono's `FixedOffset` is bounded by ±86399 seconds, so a
  timezone shift moves the civil date by at most one day.
- Rust machine integers as `Nat`/`Int` (the arithmetic involved never
  overflows `u32`/`i64` for valid calendar data).
-/

namespace TodoMd

/-- Civil date: the (year, month, day) triple underlying chrono `NaiveDate`. -/
structure Ymd where
  year : Int
  month : Nat
  day : Nat
deriving DecidableEq, Repr

/-- Proleptic Gregorian leap-year rule (chrono `NaiveDate::leap_year`). -/
def isLeapYear (y : Int) : Bool :=
  y % 4 == 0 && (y % 100 != 0 || y % 400 == 0)

/-- Number of days in a month (0 for an out-of-range month number). -/
def daysInMonth (y : Int) (m : Nat) : Nat :=
  match m with
  | 1 => 31
  | 2 => if isLeapYear y then 29 else 28
  | 3 => 31
  | 4 => 30
  | 5 => 31
  | 6 => 30
  | 7 => 31
  | 8 => 31
  | 9 => 30
  | 10 => 31
  | 11 => 30
  | 12 => 31
  | _ => 0

/-- Civil successor date: one day later in the proleptic Gregorian calendar. -/
def nextDay (d : Ymd) : Ymd :=
  if d.day < daysInMonth d.year d.month then ⟨d.year, d.month, d.day + 1⟩
  else if d.month < 12 then ⟨d.year, d.month + 1, 1⟩
  else ⟨d.year + 1, 1, 1⟩

/-- Civil predecessor date: one day earlier. -/
def prevDay (d : Ymd) : Ymd :=
  if 1 < d.day then ⟨d.year, d.month, d.day - 1⟩
  else if 1 < d.month then ⟨d.year, d.month - 1, daysInMonth d.year (d.month - 1)⟩
  else ⟨d.year - 1, 12, 31⟩

/-- Adding `k` days to a civil date (chrono `NaiveDate + Duration::days(k)`). -/
def addDays (d : Ymd) (k : Nat) : Ymd :=
  Nat.iterate nextDay k d

/-- Day number of a civil date (days since 1970-01-01, Hinnant's civil algorithm);
used only to compute the day of week. -/
def daysFromCivil (d : Ymd) : Int :=
  let y : Int := if d.month ≤ 2 then d.year - 1 else d.year
  let era : Int := Int.fdiv y 400
  let yoe : Int := y - era * 400
  let mp : Nat := if 2 < d.month then d.month - 3 else d.month + 9
  let doy : Nat := (153 * mp + 2) / 5 + d.day - 1
  let doe : Int := yoe * 365 + Int.fdiv yoe 4 - Int.fdiv yoe 100 + (doy : Int)
  era * 146097 + doe - 719468

/-- Weekday of a civil date, numbered from Monday = 1 to Sunday = 7
(chrono `Weekday::number_from_monday`); 1970-01-01 was a Thursday. -/
def Ymd.weekdayNum (d : Ymd) : Nat :=
  ((daysFromCivil d + 3).emod 7).toNat + 1

/-- Strict order on civil dates (lexicographic on year, month, day; chrono's
`NaiveDate` order restricted to civil triples). -/
def Ymd.lt (a b : Ymd) : Prop :=
  a.year < b.year ∨ (a.year = b.year ∧
    (a.month < b.month ∨ (a.month = b.month ∧ a.day < b.day)))

instance (a b : Ymd) : Decidable (Ymd.lt a b) := by
  unfold Ymd.lt
  infer_instance

/-- Naive local date-time: a civil date plus a seconds-of-day count
(chrono `NaiveDateTime`; all recurrence operations keep the time of day). -/
structure Ndt where
  date : Ymd
  secs : Nat
deriving DecidableEq, Repr

/-- Strict order on naive date-times (chrono `NaiveDateTime` order). -/
def Ndt.lt (a b : Ndt) : Prop :=
  Ymd.lt a.date b.date ∨ (a.date = b.date ∧ a.secs < b.secs)

instance (a b : Ndt) : Decidable (Ndt.lt a b) := by
  unfold Ndt.lt
  infer_instance

/-- Convenience constructor for a naive date-time from civil fields. -/
def ndt (y : Int) (m d hh mm ss : Nat) : Ndt :=
  ⟨⟨y, m, d⟩, hh * 3600 + mm * 60 + ss⟩

/-- Enumeration of weekdays (src/types.rs `DaysOfWeek`). -/
inductive DaysOfWeek where
  | Monday
  | Tuesday
  | Wednesday
  | Thursday
  | Friday
  | Saturday
  | Sunday
deriving DecidableEq, Repr

/-- Recurrence pattern (src/types.rs `Reccurence`; the source misspelling is kept). -/
inductive Reccurence where
  | Daily
  | Weekly (days : List DaysOfWeek)
  | Monthly (day : Option Nat)
  | Yearly
deriving DecidableEq, Repr

/-- Weekday numbered from Monday = 1 (src/recurrence_parser.rs `weekday_number`). -/
def weekday_number (day : DaysOfWeek) : Nat :=
  match day with
  | .Monday => 1
  | .Tuesday => 2
  | .Wednesday => 3
  | .Thursday => 4
  | .Friday => 5
  | .Saturday => 6
  | .Sunday => 7

/-- Zero-based weekday index (src/recurrence_parser.rs `day_index`). -/
def day_index (day : DaysOfWeek) : Nat :=
  match day with
  | .Monday => 0
  | .Tuesday => 1
  | .Wednesday => 2
  | .Thursday => 3
  | .Friday => 4
  | .Saturday => 5
  | .Sunday => 6

/-- Weekday from a zero-based index (src/recurrence_parser.rs `day_from_index`). -/
def day_from_index (index : Nat) : DaysOfWeek :=
  match index with
  | 0 => .Monday
  | 1 => .Tuesday
  | 2 => .Wednesday
  | 3 => .Thursday
  | 4 => .Friday
  | 5 => .Saturday
  | _ => .Sunday

/-- Weekday of a civil date as a `DaysOfWeek` value (the composition of chrono
`Datelike::weekday` with src/recurrence_parser.rs `from_chrono_weekday`). -/
def dayOfWeekOfDate (d : Ymd) : DaysOfWeek :=
  day_from_index (d.weekdayNum - 1)

/-- Insertion step of a simple sort on naturals. -/
def insertSorted (x : Nat) : List Nat → List Nat
  | [] => [x]
  | y :: ys => if x ≤ y then x :: y :: ys else y :: insertSorted x ys

/-- Ascending sort on naturals (models `Vec::sort_unstable`). -/
def sortNat (l : List Nat) : List Nat :=
  l.foldr insertSorted []

/-- Removal of adjacent duplicates (models `Vec::dedup`). -/
def dedupAdj : List Nat → List Nat
  | [] => []
  | [x] => [x]
  | x :: y :: rest =>
    if x = y then dedupAdj (y :: rest) else x :: dedupAdj (y :: rest)

/-- Body of the minimum-delta loop in src/recurrence_parser.rs
`next_weekly_due`: the positive delta (zero forced to 7) from the current
weekday to `idx`, folded into the running minimum `acc`. -/
def minDeltaStep (currentIdx acc idx : Nat) : Nat :=
  let delta := (idx + 7 - currentIdx) % 7
  let delta2 := if delta = 0 then 7 else delta
  if delta2 < acc then delta2 else acc

/-- Next weekly occurrence (src/recurrence_parser.rs `next_weekly_due`):
minimum positive day delta from the due weekday to any pattern day, with a
zero delta forced to 7; an empty day list falls back to a flat 7-day advance. -/
def next_weekly_due (due : Ndt) (days : List DaysOfWeek) : Ndt :=
  let dayIndexes := days.map weekday_number
  if dayIndexes.isEmpty then ⟨addDays due.date 7, due.secs⟩
  else
    let sorted := dedupAdj (sortNat dayIndexes)
    let currentIdx := due.date.weekdayNum
    let nextDelta := sorted.foldl (minDeltaStep currentIdx) 7
    ⟨addDays due.date nextDelta, due.secs⟩

/-- Setting the day of month to 1 (chrono `Datelike::with_day(1)` as used in
src/recurrence_parser.rs; defined for any in-range month). -/
def withDay1 (d : Ymd) : Option Ymd :=
  if 1 ≤ daysInMonth d.year d.month then some ⟨d.year, d.month, 1⟩ else none

/-- Adding whole months to a civil date with day-of-month clamping (chrono
`checked_add_months`; the chrono failure case is the far end of its
representable range, which the unbounded model does not reach). -/
def checkedAddMonths (d : Ymd) (n : Nat) : Option Ymd :=
  let m0 := d.month - 1 + n
  let y := d.year + (m0 / 12 : Nat)
  let m := m0 % 12 + 1
  some ⟨y, m, min d.day (daysInMonth y m)⟩

/-- Last day of a month (src/recurrence_parser.rs `last_day_of_month`, which
computes it as the day before the first of the following month; `none` for an
out-of-range month). -/
def last_day_of_month (year : Int) (month : Nat) : Option Nat :=
  if 1 ≤ month ∧ month ≤ 12 then some (daysInMonth year month) else none

/-- Validity-checked civil-date constructor (chrono `NaiveDate::from_ymd_opt`). -/
def fromYmd? (y : Int) (m d : Nat) : Option Ymd :=
  if 1 ≤ m ∧ m ≤ 12 ∧ 1 ≤ d ∧ d ≤ daysInMonth y m then some ⟨y, m, d⟩ else none

/-- Month advance keeping the original day of month, clamped to the target
month's length (src/recurrence_parser.rs `add_months_clamped`). -/
def add_months_clamped (date : Ymd) (months : Nat) : Option Ymd := do
  let firstOfMonth ← withDay1 date
  let targetMonthFirst ← checkedAddMonths firstOfMonth months
  let lastDay ← last_day_of_month targetMonthFirst.year targetMonthFirst.month
  let day := min date.day lastDay
  fromYmd? targetMonthFirst.year targetMonthFirst.month day

/-- Month advance to a requested day of month, clamped to the target month's
length (src/recurrence_parser.rs `add_months_on_day`). -/
def add_months_on_day (date : Ymd) (months : Nat) (dayOfMonth : Nat) : Option Ymd := do
  let firstOfMonth ← withDay1 date
  let targetMonthFirst ← checkedAddMonths firstOfMonth months
  let lastDay ← last_day_of_month targetMonthFirst.year targetMonthFirst.month
  let day := min dayOfMonth lastDay
  fromYmd? targetMonthFirst.year targetMonthFirst.month day

/-- Year advance with clamping of the day of month (src/recurrence_parser.rs
`add_years_clamped`). -/
def add_years_clamped (date : Ymd) (years : Int) : Option Ymd := do
  let targetYear := date.year + years
  let lastDay ← last_day_of_month targetYear date.month
  let day := min date.day lastDay
  fromYmd? targetYear date.month day

/-- Naive next-occurrence computation (src/recurrence_parser.rs `next_due_naive`);
the time of day is preserved in every case. -/
def next_due_naive (due : Ndt) (recurrence : Reccurence) : Option Ndt :=
  match recurrence with
  | .Daily => some ⟨addDays due.date 1, due.secs⟩
  | .Weekly days => some (next_weekly_due due days)
  | .Monthly (some day) =>
    (add_months_on_day due.date 1 day).map (fun d => ⟨d, due.secs⟩)
  | .Monthly none =>
    (add_months_clamped due.date 1).map (fun d => ⟨d, due.secs⟩)
  | .Yearly =>
    (add_years_clamped due.date 1).map (fun d => ⟨d, due.secs⟩)

/-- Shifting a civil date-time by an offset of less than one day in magnitude
(the UTC-to-fixed-offset-local conversion and its inverse; chrono `FixedOffset`
is bounded by ±86399 seconds). -/
def shiftSecs (dt : Ndt) (offset : Int) : Ndt :=
  let s : Int := (dt.secs : Int) + offset
  if s < 0 then ⟨prevDay dt.date, (s + 86400).toNat⟩
  else if s < 86400 then ⟨dt.date, s.toNat⟩
  else ⟨nextDay dt.date, (s - 86400).toNat⟩

/-- Re-localization of a naive date-time (src/recurrence_parser.rs `localize`).
For the fixed-offset local zone of this model `from_local_datetime` always
yields a single instant, so localization always succeeds. -/
def localize (naive : Ndt) : Option Ndt :=
  some naive

/-- Next occurrence of a recurrence after a UTC due instant
(src/recurrence_parser.rs `next_due_date_utc`): convert to the local calendar,
advance naively, re-localize, convert back to UTC.  `offset` is the local
zone's UTC offset in seconds, made explicit in place of the ambient chrono
`Local`. -/
def next_due_date_utc (due : Ndt) (recurrence : Reccurence) (offset : Int) :
    Option Ndt := do
  let naiveDue := shiftSecs due offset
  let nextNaive ← next_due_naive naiveDue recurrence
  let nextLocal ← localize nextNaive
  some (shiftSecs nextLocal (-offset))

/-- Rollover test (src/recurrence_parser.rs `is_rollover_due_date`): the current
due date is exactly the next occurrence computed from the previous one. -/
def is_rollover_due_date (previousDue currentDue : Ndt) (recurrence : Reccurence)
    (offset : Int) : Bool :=
  match next_due_date_utc previousDue recurrence offset with
  | some next => decide (next = currentDue)
  | none => false

/-- Levenshtein edit distance, classic recursion over a structural fuel
argument (every call shrinks the combined length, so `levFuel` is exact
whenever the fuel is at least the combined length of the two lists). -/
def levFuel : Nat → List Char → List Char → Nat
  | 0, xs, ys => xs.length + ys.length
  | _ + 1, [], ys => ys.length
  | _ + 1, x :: xs, [] => (x :: xs).length
  | f + 1, x :: xs, y :: ys =>
    if x = y then levFuel f xs ys
    else 1 + min (levFuel f xs ys)
      (min (levFuel f (x :: xs) ys) (levFuel f xs (y :: ys)))

/-- Levenshtein edit distance between character lists (the distance underlying
`strsim::normalized_levenshtein`; the classic recursion computes the same
value as strsim's dynamic-programming implementation). -/
def lev (a b : List Char) : Nat :=
  levFuel (a.length + b.length) a b

/-- Normalized Levenshtein similarity (`strsim::normalized_levenshtein`):
1 minus the distance divided by the longer length, and 1 for two empty
strings.  The `f64` score of the source is modelled exactly as the rational
1 - n/d, represented by the numerator/denominator pair (n, d); the
comparisons below are done by cross multiplication.  For the short vocabulary
words involved these exact comparisons agree with the floating-point ones. -/
def normalizedLevScore (a b : List Char) : Nat × Nat :=
  if a.isEmpty && b.isEmpty then (0, 1)
  else (lev a b, max a.length b.length)

/-- Whether the score 1 - n1/d1 is strictly greater than 1 - n2/d2
(for positive denominators), by cross multiplication. -/
def scoreGt (s1 s2 : Nat × Nat) : Bool :=
  s1.1 * s2.2 < s2.1 * s1.2

/-- Whether the score 1 - n/d reaches the 0.72 acceptance threshold
(for a positive denominator): 1 - n/d ≥ 72/100 iff 25 n ≤ 7 d. -/
def scoreGeThreshold (s : Nat × Nat) : Bool :=
  25 * s.1 ≤ 7 * s.2

/-- Unicode White_Space test (Rust `char::is_whitespace`, the class behind
`str::trim`, `str::split_whitespace`, and the regex crate's `\s`):
U+0009..U+000D, U+0020, U+0085, U+00A0, U+1680, U+2000..U+200A, U+2028,
U+2029, U+202F, U+205F, U+3000. -/
def isWhite (c : Char) : Bool :=
  (9 ≤ c.toNat && c.toNat ≤ 13) || c.toNat = 32 || c.toNat = 133 ||
    c.toNat = 160 || c.toNat = 5760 || (8192 ≤ c.toNat && c.toNat ≤ 8202) ||
    c.toNat = 8232 || c.toNat = 8233 || c.toNat = 8239 || c.toNat = 8287 ||
    c.toNat = 12288

/-- Removal of leading whitespace. -/
def trimLead : List Char → List Char
  | [] => []
  | c :: rest => if isWhite c then trimLead rest else c :: rest

/-- Removal of leading and trailing whitespace (Rust `str::trim`). -/
def trimList (cs : List Char) : List Char :=
  (trimLead (trimLead cs).reverse).reverse

/-- ASCII lowercasing of a character list (Rust `to_ascii_lowercase`). -/
def lowerList (cs : List Char) : List Char :=
  cs.map Char.toLower

/-- Weekday alias vocabulary, in the source's enumeration order
(src/recurrence_parser.rs `parse_day_of_week`). -/
def dayAliases : List (List Char × DaysOfWeek) :=
  [("monday".toList, .Monday), ("mon".toList, .Monday),
   ("tuesday".toList, .Tuesday), ("tue".toList, .Tuesday),
   ("tues".toList, .Tuesday),
   ("wednesday".toList, .Wednesday), ("wed".toList, .Wednesday),
   ("thursday".toList, .Thursday), ("thu".toList, .Thursday),
   ("thur".toList, .Thursday), ("thurs".toList, .Thursday),
   ("friday".toList, .Friday), ("fri".toList, .Friday),
   ("saturday".toList, .Saturday), ("sat".toList, .Saturday),
   ("sunday".toList, .Sunday), ("sun".toList, .Sunday)]

/-- Fuzzy weekday parse (src/recurrence_parser.rs `parse_day_of_week`):
an exact alias match wins outright; otherwise the best-scoring alias is
accepted when its similarity reaches 0.72, ties resolved to the first alias
attaining the maximum (the source's strict `>` update with a 0.0 initial
best score, whose exact representation is the pair (1, 1)). -/
def parse_day_of_week (raw : List Char) : Option DaysOfWeek :=
  let token := lowerList (trimList raw)
  match dayAliases.find? (fun p => p.1 == token) with
  | some p => some p.2
  | none =>
    let best := dayAliases.foldl
      (fun (st : Option DaysOfWeek × (Nat × Nat)) p =>
        let score := normalizedLevScore token p.1
        if scoreGt score st.2 then (some p.2, score) else st)
      (none, (1, 1))
    if scoreGeThreshold best.2 then best.1 else none

/-- Split at the first occurrence of a character (Rust `str::split_once`). -/
def splitOnceList (cs : List Char) (c : Char) : Option (List Char × List Char) :=
  match cs with
  | [] => none
  | x :: xs =>
    if x = c then some ([], xs)
    else (splitOnceList xs c).map (fun p => (x :: p.1, p.2))

/-- Range expansion (src/recurrence_parser.rs `expand_day_range`): walk
forward from `start`, wrapping at the week boundary, until `stop` is reached
inclusive.  The source loop visits exactly the indices start, start+1, ...,
start+span modulo 7, where span is the forward distance from start to stop;
it is rendered here in that closed form. -/
def expand_day_range (start stop : DaysOfWeek) : List DaysOfWeek :=
  let startIdx := day_index start
  let stopIdx := day_index stop
  let span := (stopIdx + 7 - startIdx) % 7
  (List.range (span + 1)).map (fun i => day_from_index ((startIdx + i) % 7))

/-- Parse of one comma-separated token: either a range `A-B` or a single
weekday (src/recurrence_parser.rs `parse_day_group`). -/
def parse_day_group (token : List Char) : Option (List DaysOfWeek) :=
  match splitOnceList token '-' with
  | some (start, stop) => do
    let startDay ← parse_day_of_week (trimList start)
    let stopDay ← parse_day_of_week (trimList stop)
    some (expand_day_range startDay stopDay)
  | none => (parse_day_of_week token).map (fun d => [d])

/-- Replacement of every occurrence of " and " by a comma
(Rust `str::replace(" and ", ",")`, scanning left to right without
rescanning replaced text). -/
def replaceAndComma : List Char → List Char
  | ' ' :: 'a' :: 'n' :: 'd' :: ' ' :: rest => ',' :: replaceAndComma rest
  | c :: rest => c :: replaceAndComma rest
  | [] => []

/-- Split on every comma (Rust `str::split(',')`): n commas yield n+1 fields,
empty fields included. -/
def splitComma : List Char → List (List Char)
  | [] => [[]]
  | c :: rest =>
    if c = ',' then [] :: splitComma rest
    else
      match splitComma rest with
      | t :: ts => (c :: t) :: ts
      | [] => [[c]]

/-- Loop body of src/recurrence_parser.rs `parse_weekly_days`: each parsed
group's days are appended to the accumulator unless already present; any
unparseable token aborts with `none` (the `?` operator in the source). -/
def collectDays : List (List Char) → List DaysOfWeek → Option (List DaysOfWeek)
  | [], acc => some acc
  | t :: ts, acc =>
    match parse_day_group t with
    | none => none
    | some ds =>
      collectDays ts (ds.foldl (fun a d => if a.contains d then a else a ++ [d]) acc)

/-- Tokenization step of src/recurrence_parser.rs `parse_weekly_days`:
replace " and " by commas, split on commas, trim, and drop empty fields. -/
def weeklyTokens (raw : List Char) : List (List Char) :=
  ((splitComma (replaceAndComma raw)).map trimList).filter (fun s => !s.isEmpty)

/-- Parse of the day list of a weekly recurrence
(src/recurrence_parser.rs `parse_weekly_days`). -/
def parse_weekly_days (raw : List Char) : Option (List DaysOfWeek) :=
  match collectDays (weeklyTokens raw) [] with
  | none => none
  | some days => if days.isEmpty then none else some days

/-- Repeated removal of a leading "the " (Rust `trim_start_matches("the ")`). -/
def stripThe : List Char → List Char
  | 't' :: 'h' :: 'e' :: ' ' :: rest => stripThe rest
  | cs => cs

/-- Whether a character list is empty or one of the four ordinal suffixes. -/
def ordSuffixOrEmpty (cs : List Char) : Bool :=
  cs = [] || cs = ['s', 't'] || cs = ['n', 'd'] || cs = ['r', 'd'] || cs = ['t', 'h']

/-- Numeric value of a decimal digit character. -/
def digitVal (c : Char) : Nat :=
  c.toNat - '0'.toNat

/-- Match of the anchored day-of-month pattern (the regex in
src/recurrence_parser.rs `parse_monthly_day`): one or two digits followed by
an optional ordinal suffix and the end of input. -/
def matchMonthlyDayRe (cs : List Char) : Option Nat :=
  match cs with
  | [] => none
  | d1 :: rest =>
    if d1.isDigit then
      match rest with
      | [] => some (digitVal d1)
      | d2 :: rest2 =>
        if d2.isDigit then
          if ordSuffixOrEmpty rest2 then some (digitVal d1 * 10 + digitVal d2)
          else none
        else if ordSuffixOrEmpty rest then some (digitVal d1)
        else none
    else none

/-- Parse of a monthly ordinal day (src/recurrence_parser.rs
`parse_monthly_day`): strip "the ", match the digit/suffix pattern, and
require the day to lie in 1..=31. -/
def parse_monthly_day (raw : List Char) : Option Nat := do
  let cleaned := stripThe (trimList raw)
  let day ← matchMonthlyDayRe cleaned
  if 1 ≤ day ∧ day ≤ 31 then some day else none

/-- Recurrence-phrase parser (src/recurrence_parser.rs `parse_reccurence`).
The chrono `Local::now()` argument is consumed only for its weekday, so the
model takes the local civil date-time as an explicit value.  The two
`strip_prefix` calls of the source are rendered as a prefix test followed by
dropping the prefix length. -/
def parse_reccurence (raw : List Char) (nowLocal : Ndt) : Option Reccurence :=
  let normalized := lowerList (trimList raw)
  if normalized = "daily".toList then some .Daily
  else if normalized = "monthly".toList then some (.Monthly none)
  else if normalized = "yearly".toList then some .Yearly
  else if normalized = "weekly".toList then
    some (.Weekly [dayOfWeekOfDate nowLocal.date])
  else if "weekly on ".toList.isPrefixOf normalized then
    (parse_weekly_days (normalized.drop 10)).map .Weekly
  else if "monthly on ".toList.isPrefixOf normalized then
    (parse_monthly_day (normalized.drop 11)).map (fun d => .Monthly (some d))
  else none

/-- Task record (src/types.rs `Todo`).  The id is the canonical textual UUID;
the wall-clock `created_at`/`updated_at` stamps are informational system reads
(excluded from diffing equality by the spec) and are omitted. -/
structure Todo where
  id : List Char
  done : Bool
  due_date : Option Ndt
  recurence : Option Reccurence
  name : String
deriving DecidableEq, Repr

/-- Completion (src/types.rs `Todo::complete`): with both a recurrence and a
due date present and a successful next-occurrence computation, the due date
advances and the record stays not-done; otherwise the record is marked done. -/
def Todo.complete (t : Todo) (offset : Int) : Todo :=
  match t.recurence, t.due_date with
  | some reccurence, some due_date =>
    match next_due_date_utc due_date reccurence offset with
    | some nextDue => { t with due_date := some nextDue, done := false }
    | none => { t with done := true }
  | _, _ => { t with done := true }

/-- Decimal digit rendering of a natural number (fuel-structured so that the
kernel can evaluate it; the fuel n+1 always suffices). -/
def natDigitsAux : Nat → Nat → List Char
  | 0, _ => []
  | f + 1, n =>
    if n < 10 then [Char.ofNat (48 + n)]
    else natDigitsAux f (n / 10) ++ [Char.ofNat (48 + n % 10)]

/-- Decimal rendering of a natural number (Rust `format!("{n}")`). -/
def natDigits (n : Nat) : List Char :=
  natDigitsAux (n + 1) n

/-- Ordinal rendering of a day of month (src/types.rs `ordinal_day`). -/
def ordinal_day (day : Nat) : List Char :=
  let suffix :=
    if 11 ≤ day % 100 ∧ day % 100 ≤ 13 then "th".toList
    else match day % 10 with
      | 1 => "st".toList
      | 2 => "nd".toList
      | 3 => "rd".toList
      | _ => "th".toList
  natDigits day ++ suffix

/-- Full weekday name (src/types.rs `DaysOfWeek::as_str`). -/
def DaysOfWeek.as_str (d : DaysOfWeek) : List Char :=
  match d with
  | .Monday => "monday".toList
  | .Tuesday => "tuesday".toList
  | .Wednesday => "wednesday".toList
  | .Thursday => "thursday".toList
  | .Friday => "friday".toList
  | .Saturday => "saturday".toList
  | .Sunday => "sunday".toList

/-- Join with ", " separators (Rust `Vec::join(", ")`). -/
def joinComma : List (List Char) → List Char
  | [] => []
  | [x] => x
  | x :: xs => x ++ ", ".toList ++ joinComma xs

/-- Canonical recurrence rendering (src/types.rs `Reccurence::as_str`):
full weekday names, bare "weekly" for a 7-day pattern, ordinal monthly day. -/
def Reccurence.as_str (r : Reccurence) : List Char :=
  match r with
  | .Daily => "daily".toList
  | .Weekly days =>
    if days.length = 7 then "weekly".toList
    else "weekly on ".toList ++ joinComma (days.map DaysOfWeek.as_str)
  | .Monthly (some day) => "monthly on ".toList ++ ordinal_day day
  | .Monthly none => "monthly".toList
  | .Yearly => "yearly".toList

/-- Two-digit zero-padded decimal rendering. -/
def pad2 (n : Nat) : List Char :=
  [Char.ofNat (48 + n / 10 % 10), Char.ofNat (48 + n % 10)]

/-- Four-digit zero-padded decimal rendering. -/
def pad4 (n : Nat) : List Char :=
  [Char.ofNat (48 + n / 1000 % 10), Char.ofNat (48 + n / 100 % 10),
   Char.ofNat (48 + n / 10 % 10), Char.ofNat (48 + n % 10)]

/-- RFC 3339 rendering of a second-precision UTC instant (chrono
`DateTime<Utc>::to_rfc3339`, which prints the +00:00 offset and, for years in
0..=9999, a four-digit year). -/
def printRfc3339 (t : Ndt) : List Char :=
  pad4 t.date.year.toNat ++ "-".toList ++ pad2 t.date.month ++ "-".toList ++
    pad2 t.date.day ++ "T".toList ++ pad2 (t.secs / 3600) ++ ":".toList ++
    pad2 (t.secs / 60 % 60) ++ ":".toList ++ pad2 (t.secs % 60) ++
    "+00:00".toList

/-- Offset tail of an RFC 3339 timestamp: Z (either case) or ±HH:MM. -/
def parseOffsetTail : List Char → Option Int
  | ['Z'] => some 0
  | ['z'] => some 0
  | [s, a, b, ':', c, d] =>
    if (s = '+' ∨ s = '-') ∧ a.isDigit ∧ b.isDigit ∧ c.isDigit ∧ d.isDigit then
      let hh := digitVal a * 10 + digitVal b
      let mm := digitVal c * 10 + digitVal d
      if hh ≤ 23 ∧ mm ≤ 59 then
        some ((if s = '+' then 1 else -1) * ((hh : Int) * 3600 + mm * 60))
      else none
    else none
  | _ => none

/-- Strict RFC 3339 parse at second precision (chrono
`DateTime::parse_from_rfc3339`; fractional seconds and leap seconds, which
the encoder never emits, are not modelled).  Returns the civil fields with
the parsed offset. -/
def parseRfc3339 (cs : List Char) : Option (Ndt × Int) :=
  match cs with
  | y1 :: y2 :: y3 :: y4 :: '-' :: m1 :: m2 :: '-' :: d1 :: d2 :: 'T' ::
      h1 :: h2 :: ':' :: mi1 :: mi2 :: ':' :: s1 :: s2 :: rest =>
    if y1.isDigit ∧ y2.isDigit ∧ y3.isDigit ∧ y4.isDigit ∧ m1.isDigit ∧
        m2.isDigit ∧ d1.isDigit ∧ d2.isDigit ∧ h1.isDigit ∧ h2.isDigit ∧
        mi1.isDigit ∧ mi2.isDigit ∧ s1.isDigit ∧ s2.isDigit then
      let y : Int := ((digitVal y1 * 10 + digitVal y2) * 10 + digitVal y3) * 10
        + digitVal y4
      let mo := digitVal m1 * 10 + digitVal m2
      let da := digitVal d1 * 10 + digitVal d2
      let hh := digitVal h1 * 10 + digitVal h2
      let mi := digitVal mi1 * 10 + digitVal mi2
      let ss := digitVal s1 * 10 + digitVal s2
      match parseOffsetTail rest with
      | some off =>
        if 1 ≤ mo ∧ mo ≤ 12 ∧ 1 ≤ da ∧ da ≤ daysInMonth y mo ∧ hh ≤ 23 ∧
            mi ≤ 59 ∧ ss ≤ 59 then
          some (⟨⟨y, mo, da⟩, hh * 3600 + mi * 60 + ss⟩, off)
        else none
      | none => none
    else none
  | _ => none

/-- Split into maximal whitespace-free words (Rust `str::split_whitespace`). -/
def splitWsAux : List Char → List Char → List (List Char)
  | [], acc => if acc.isEmpty then [] else [acc.reverse]
  | c :: rest, acc =>
    if isWhite c then
      if acc.isEmpty then splitWsAux rest [] else acc.reverse :: splitWsAux rest []
    else splitWsAux rest (c :: acc)

/-- Word list of a character list. -/
def splitWs (cs : List Char) : List (List Char) :=
  splitWsAux cs []

/-- Join words with single spaces (Rust `Vec::join(" ")`). -/
def joinSpace : List (List Char) → List Char
  | [] => []
  | [x] => x
  | x :: xs => x ++ ' ' :: joinSpace xs

/-- Removal of every period character (Rust `str::replace('.', "")`). -/
def removePeriods (cs : List Char) : List Char :=
  cs.filter (fun c => c ≠ '.')

/-- Input normalization (src/date_parser.rs `normalize_input`): trim,
lowercase, strip periods, collapse internal whitespace. -/
def normalize_input (value : List Char) : List Char :=
  joinSpace (splitWs (removePeriods (lowerList (trimList value))))

/-- Fuzzy vocabulary match (src/date_parser.rs `fuzzy_match`): exact match
wins outright, otherwise the best-scoring entry is accepted at the 0.72
threshold with first-max tie-break (same exact-rational score model as
`parse_day_of_week`). -/
def fuzzy_match (input : List Char) (choices : List (List Char)) :
    Option (List Char) :=
  let normalized := lowerList (trimList input)
  if normalized.isEmpty then none
  else
    match choices.find? (fun c => c == normalized) with
    | some exact => some exact
    | none =>
      let best := choices.foldl
        (fun (st : Option (List Char) × (Nat × Nat)) choice =>
          let score := normalizedLevScore normalized choice
          if scoreGt score st.2 then (some choice, score) else st)
        (none, (1, 1))
      if scoreGeThreshold best.2 then best.1 else none

/-- Numeric-offset timezone token shape: `[+-]\d{2}:?\d{2}`. -/
def offsetShape : List Char → Bool
  | s :: rest =>
    (s = '+' || s = '-') &&
      (match rest with
       | [a, b, ':', c, d] => a.isDigit && b.isDigit && c.isDigit && d.isDigit
       | [a, b, c, d] => a.isDigit && b.isDigit && c.isDigit && d.isDigit
       | _ => false)
  | [] => false

/-- Alphabetic timezone token shape: `[a-z]{2,8}`. -/
def alphaShape (t : List Char) : Bool :=
  2 ≤ t.length && t.length ≤ 8 && t.all (fun c => 'a' ≤ c && c ≤ 'z')

/-- Whether a word can be the timezone token of the suffix regex in
src/date_parser.rs `split_timezone_suffix`. -/
def tzTokenShape (t : List Char) : Bool :=
  t = "utc".toList || t = "gmt".toList || t = "z".toList ||
    offsetShape t || alphaShape t

/-- Parse of a detected timezone token (src/date_parser.rs
`parse_timezone_token`): fuzzy utc/gmt/z, else a bounded ±HH:MM offset. -/
def parse_timezone_token (token : List Char) : Option Int :=
  match fuzzy_match token ["utc".toList, "gmt".toList, "z".toList] with
  | some _ => some 0
  | none =>
    match token with
    | s :: rest =>
      if s = '+' ∨ s = '-' then
        match rest with
        | [a, b, ':', c, d] => offsetOfDigits s a b c d
        | [a, b, c, d] => offsetOfDigits s a b c d
        | _ => none
      else none
    | [] => none
where
  offsetOfDigits (s a b c d : Char) : Option Int :=
    if a.isDigit ∧ b.isDigit ∧ c.isDigit ∧ d.isDigit then
      let hours := digitVal a * 10 + digitVal b
      let minutes := digitVal c * 10 + digitVal d
      if 23 < hours ∨ 59 < minutes then none
      else some ((if s = '+' then 1 else -1) * ((hours : Int) * 3600 + minutes * 60))
    else none

/-- Timezone-suffix split (src/date_parser.rs `split_timezone_suffix`).  On
normalized input the suffix regex matches exactly when a last
whitespace-separated word has the timezone-token shape; that word is parsed
and, when valid, replaces the home offset, the rest being kept.  An
unparseable token leaves the input unsplit with the home offset. -/
def split_timezone_suffix (value : List Char) (homeTz : Int) : List Char × Int :=
  let ws := splitWs value
  if 2 ≤ ws.length ∧ tzTokenShape (ws.getLastD []) then
    match parse_timezone_token (ws.getLastD []) with
    | some tz => (trimList (joinSpace ws.dropLast), tz)
    | none => (value, homeTz)
  else (value, homeTz)

/-- Word character for the regex word boundary `\b` ([A-Za-z0-9_]). -/
def isWordChar (c : Char) : Bool :=
  c.isAlphanum || c = '_'

/-- Remainder of the 12-hour time regex after the captured digits: optional
`:mm` (two digits, preferred when present), then `\s*`, then am/pm followed
by a word boundary.  Returns (hour, minute, is-pm). -/
def meridSuffix (h : Nat) : List Char → Option (Nat × Nat × Bool)
  | ':' :: a :: b :: rest =>
    if a.isDigit && b.isDigit then
      match meridAmPm h (digitVal a * 10 + digitVal b) rest with
      | some r => some r
      | none => meridAmPm h 0 (':' :: a :: b :: rest)
    else meridAmPm h 0 (':' :: a :: b :: rest)
  | cs => meridAmPm h 0 cs
where
  meridAmPm (h m : Nat) (cs : List Char) : Option (Nat × Nat × Bool) :=
    match cs.dropWhile isWhite with
    | 'a' :: 'm' :: rest =>
      if (rest.headD ' ').isAlphanum || rest.headD ' ' = '_' then none
      else some (h, m, false)
    | 'p' :: 'm' :: rest =>
      if (rest.headD ' ').isAlphanum || rest.headD ' ' = '_' then none
      else some (h, m, true)
    | _ => none

/-- Match of the 12-hour time regex at the current position (which the caller
guarantees to be a word boundary): one or two digits (two preferred), then
`meridSuffix`. -/
def matchMeridiemHere : List Char → Option (Nat × Nat × Bool)
  | d1 :: d2 :: rest =>
    if d1.isDigit then
      if d2.isDigit then
        match meridSuffix (digitVal d1 * 10 + digitVal d2) rest with
        | some r => some r
        | none => meridSuffix (digitVal d1) (d2 :: rest)
      else meridSuffix (digitVal d1) (d2 :: rest)
    else none
  | [d1] => if d1.isDigit then meridSuffix (digitVal d1) [] else none
  | [] => none

/-- Leftmost search for the 12-hour time pattern
`\b(\d{1,2})(?::(\d{2}))?\s*(am|pm)\b` (src/date_parser.rs `parse_time`). -/
def findMeridiem : List Char → Bool → Option (Nat × Nat × Bool)
  | [], _ => none
  | c :: rest, bdry =>
    match (if bdry then matchMeridiemHere (c :: rest) else none) with
    | some r => some r
    | none => findMeridiem rest (!isWordChar c)

/-- Match of the 24-hour time pattern `\d{1,2}:\d{2}` at the current position
(two leading digits preferred), ending at a word boundary. -/
def matchHmHere : List Char → Option (Nat × Nat)
  | d1 :: d2 :: ':' :: a :: b :: rest =>
    if d1.isDigit && d2.isDigit && a.isDigit && b.isDigit &&
        !((rest.headD ' ').isAlphanum || rest.headD ' ' = '_') then
      some (digitVal d1 * 10 + digitVal d2, digitVal a * 10 + digitVal b)
    else if d1.isDigit && d2 = ':' then
      none
    else none
  | d1 :: ':' :: a :: b :: rest =>
    if d1.isDigit && a.isDigit && b.isDigit &&
        !((rest.headD ' ').isAlphanum || rest.headD ' ' = '_') then
      some (digitVal d1, digitVal a * 10 + digitVal b)
    else none
  | _ => none

/-- Leftmost search for the 24-hour time pattern `\b(\d{1,2})(?::(\d{2}))\b`
(src/date_parser.rs `parse_time`). -/
def findHm : List Char → Bool → Option (Nat × Nat)
  | [], _ => none
  | c :: rest, bdry =>
    match (if bdry then matchHmHere (c :: rest) else none) with
    | some r => some r
    | none => findHm rest (!isWordChar c)

/-- Time-of-day extraction (src/date_parser.rs `parse_time`): prefer the
first 12-hour `h[:mm] am|pm` match (hour 1..12, 12am → 0, pm adds 12), else
the first 24-hour `h:mm` match; the boolean marks an explicit time. -/
def parse_time (value : List Char) : Option (Nat × Nat × Bool) :=
  match findMeridiem value true with
  | some (h, m, isPm) =>
    if h = 0 ∨ 12 < h ∨ 59 < m then none
    else
      let h2 := if !isPm then (if h = 12 then 0 else h)
        else (if h ≠ 12 then h + 12 else h)
      some (h2, m, true)
  | none =>
    match findHm value true with
    | some (h, m) =>
      if 23 < h ∨ 59 < m then none else some (h, m, true)
    | none => none

/-- Maximal alphabetic runs of a character list (the `[a-z]+` token scan of
src/date_parser.rs `resolve_date`; the input is already lowercased). -/
def alphaRunsAux : List Char → List Char → List (List Char)
  | [], acc => if acc.isEmpty then [] else [acc.reverse]
  | c :: rest, acc =>
    if 'a' ≤ c ∧ c ≤ 'z' then alphaRunsAux rest (c :: acc)
    else if acc.isEmpty then alphaRunsAux rest []
    else acc.reverse :: alphaRunsAux rest []

/-- Alphabetic tokens of a value. -/
def alphaRuns (cs : List Char) : List (List Char) :=
  alphaRunsAux cs []

/-- Date-keyword vocabulary of src/date_parser.rs `resolve_date`. -/
def dateKeywords : List (List Char) :=
  ["today".toList, "tomorrow".toList, "monday".toList, "tuesday".toList,
   "wednesday".toList, "thursday".toList, "friday".toList, "saturday".toList,
   "sunday".toList]

/-- First token fuzzy-matching a date keyword (the scan loop of
src/date_parser.rs `resolve_date`). -/
def firstKeyword : List (List Char) → Option (List Char)
  | [] => none
  | t :: ts =>
    match fuzzy_match t dateKeywords with
    | some k => some k
    | none => firstKeyword ts

/-- Weekday number of a weekday name (src/date_parser.rs `day_name_to_num`). -/
def day_name_to_num (day : List Char) : Option Nat :=
  if day = "monday".toList then some 1
  else if day = "tuesday".toList then some 2
  else if day = "wednesday".toList then some 3
  else if day = "thursday".toList then some 4
  else if day = "friday".toList then some 5
  else if day = "saturday".toList then some 6
  else if day = "sunday".toList then some 7
  else none

/-- Calendar-date resolution (src/date_parser.rs `resolve_date`): first fuzzy
date keyword wins; weekday deltas are `(target − current + 7) mod 7` with a
zero delta forced to 7 unless an explicit time is still ahead today; with no
keyword, an explicit time already past rolls to tomorrow. -/
def resolve_date (value : List Char) (baseDate : Ymd) (nowTimeSecs : Nat)
    (hasTime : Bool) (hour minute : Nat) : Option Ymd :=
  if 23 < hour ∨ 59 < minute then none
  else
    let requestedTime := hour * 3600 + minute * 60
    match firstKeyword (alphaRuns value) with
    | some k =>
      if k = "today".toList then some baseDate
      else if k = "tomorrow".toList then some (addDays baseDate 1)
      else
        match day_name_to_num k with
        | some targetWeekday =>
          let currentWeekday := baseDate.weekdayNum
          let delta0 := (targetWeekday + 7 - currentWeekday) % 7
          let delta :=
            if delta0 = 0 ∧ (!hasTime ∨ requestedTime ≤ nowTimeSecs) then 7
            else delta0
          some (addDays baseDate delta)
        | none => none
    | none =>
      if hasTime ∧ requestedTime ≤ nowTimeSecs then some (addDays baseDate 1)
      else some baseDate

/-- Fallback human-datetime resolver (src/date_parser.rs
`parse_human_datetime_with_tz`): normalize, split a timezone suffix, extract
the time of day (defaulting to 23:59 with no explicit time), resolve the
calendar date relative to the supplied now in the resolved offset, and
convert the combined local instant back to UTC (single-valued for a fixed
offset). -/
def parse_human_datetime_with_tz (input : List Char) (nowUtc : Ndt)
    (homeTz : Int) : Option Ndt :=
  let normalized := normalize_input input
  if normalized.isEmpty then none
  else
    let (valueWithoutTz, tz) := split_timezone_suffix normalized homeTz
    let nowLocal := shiftSecs nowUtc tz
    let (hour, minute, hasTime) := (parse_time valueWithoutTz).getD (23, 59, false)
    match resolve_date valueWithoutTz nowLocal.date nowLocal.secs hasTime hour
        minute with
    | some targetDate =>
      if 23 < hour ∨ 59 < minute then none
      else some (shiftSecs ⟨targetDate, hour * 3600 + minute * 60⟩ (-tz))
    | none => none

/-- Human-datetime parser (src/date_parser.rs `parse_human_datetime`): strict
RFC 3339 fast path, else the fallback resolver.  The source reads the
fallback's home offset from the ambient system zone
(`Local::now().offset().fix()`); the model takes it as the explicit
`homeTz`. -/
def parse_human_datetime (input : List Char) (nowUtc : Ndt) (homeTz : Int) :
    Option Ndt :=
  match parseRfc3339 (trimList input) with
  | some (t, off) => some (shiftSecs t (-off))
  | none => parse_human_datetime_with_tz input nowUtc homeTz

/-- Captures of the todo-line regex of src/types.rs `Todo::from_str`. -/
structure LineFields where
  doneChar : Char
  name : List Char
  due : Option (List Char)
  recc : Option (List Char)
  idStr : Option (List Char)
deriving DecidableEq, Repr

/-- Strip of a literal from the front of a character list (`none` on a
mismatch). -/
def stripLit : List Char → List Char → Option (List Char)
  | [], cs => some cs
  | _ :: _, [] => none
  | l :: ls, c :: cs => if c = l then stripLit ls cs else none

/-- Longest non-')' run and the remainder (the regex `[^)]+` is forced to
stop at the first closing parenthesis). -/
def spanNotParen : List Char → List Char × List Char
  | [] => ([], [])
  | c :: rest =>
    if c = ')' then ([], c :: rest)
    else
      let (a, b) := spanNotParen rest
      (c :: a, b)

/-- Parenthesized field content: at least one non-')' character up to a
closing parenthesis, returning the content and the remainder after it. -/
def takeGroup (cs : List Char) : Option (List Char × List Char) :=
  let (content, rest) := spanNotParen cs
  match content, rest with
  | [], _ => none
  | _, ')' :: rest2 => some (content, rest2)
  | _, _ => none

/-- Character class `[0-9a-fA-F-]` of the id capture. -/
def isIdChar (c : Char) : Bool :=
  c.isDigit || ('a' ≤ c && c ≤ 'f') || ('A' ≤ c && c ≤ 'F') || c = '-'

/-- Match of the optional id group and terminator
 `(?: \(id: [0-9a-fA-F-]{36}\))?\.?$` — the group is taken when possible and
released when the remainder then fails (regex backtracking). -/
def matchIdGroup (cs : List Char) : Option (Option (List Char)) :=
  match
    (do
      let rest ← stripLit " (id: ".toList cs
      let idStr := rest.take 36
      if idStr.length = 36 ∧ idStr.all isIdChar then
        match stripLit ")".toList (rest.drop 36) with
        | some rest2 =>
          if rest2 = [] ∨ rest2 = ['.'] then some (some idStr) else none
        | none => none
      else none : Option (Option (List Char))) with
  | some r => some r
  | none => if cs = [] ∨ cs = ['.'] then some none else none

/-- Match of the optional recurrence group followed by `matchIdGroup`:
`(?: \(reccurence: [^)]+\))?`, with backtracking to the absent branch. -/
def matchReccGroup (cs : List Char) :
    Option (Option (List Char) × Option (List Char)) :=
  match
    (do
      let rest ← stripLit " (reccurence: ".toList cs
      let (content, rest2) ← takeGroup rest
      let idPart ← matchIdGroup rest2
      some (some content, idPart) :
        Option (Option (List Char) × Option (List Char))) with
  | some r => some r
  | none => (matchIdGroup cs).map (fun idPart => (none, idPart))

/-- Match of the optional due group followed by the remaining groups:
`(?: \(due: [^)]+\))?`, with backtracking to the absent branch. -/
def matchTail (cs : List Char) :
    Option (Option (List Char) × Option (List Char) × Option (List Char)) :=
  match
    (do
      let rest ← stripLit " (due: ".toList cs
      let (content, rest2) ← takeGroup rest
      let (recc, idPart) ← matchReccGroup rest2
      some (some content, recc, idPart) :
        Option (Option (List Char) × Option (List Char) × Option (List Char))) with
  | some r => some r
  | none => (matchReccGroup cs).map (fun p => (none, p.1, p.2))

/-- The lazy name capture `(?P<name>.+?)`: split points are tried left to
right, so the name is the shortest non-empty run of non-newline characters
whose remainder matches the field groups and terminator. -/
def nameSearch (acc : List Char) :
    List Char →
      Option (List Char × Option (List Char) × Option (List Char) ×
        Option (List Char))
  | [] => none
  | c :: rest =>
    if c = '\n' then none
    else
      match matchTail rest with
      | some (due, recc, idStr) => some (acc ++ [c], due, recc, idStr)
      | none => nameSearch (acc ++ [c]) rest

/-- Model of the anchored todo-line regex of src/types.rs `Todo::from_str`:
`^- \[([x_])\] (.+?)(?: \(due: ([^)]+)\))?(?: \(reccurence: ([^)]+)\))?`
`(?: \(id: ([0-9a-fA-F-]{36})\))?\.?$` (a non-matching line panics in the
source, modelled as `none`). -/
def matchTodoLine (line : List Char) : Option LineFields :=
  match stripLit "- [".toList line with
  | some (d :: rest2) =>
    if d = 'x' ∨ d = '_' then
      match stripLit "] ".toList rest2 with
      | some rest3 =>
        match nameSearch [] rest3 with
        | some (name, due, recc, idStr) => some ⟨d, name, due, recc, idStr⟩
        | none => none
      | none => none
    else none
  | _ => none

/-- Hex digit for the uuid shape. -/
def isHexDigit (c : Char) : Bool :=
  c.isDigit || ('a' ≤ c && c ≤ 'f') || ('A' ≤ c && c ≤ 'F')

/-- Canonical hyphenated uuid shape (8-4-4-4-12 hex groups, either case). -/
def uuidShape (cs : List Char) : Bool :=
  cs.length = 36 &&
    (List.range 36).all (fun i =>
      let c := cs.getD i ' '
      if i = 8 || i = 13 || i = 18 || i = 23 then c = '-' else isHexDigit c)

/-- Uuid text parse (`Uuid::parse_str` on a 36-character candidate):
hyphenated-shape check, normalized to the lowercase canonical rendering that
`Uuid`'s `Display` produces. -/
def uuidParse (cs : List Char) : Option (List Char) :=
  if uuidShape cs then some (lowerList cs) else none

/-- Ambient system values read by src/types.rs `Todo::from_str`: the current
instant (`Utc::now()`), the local offset (the chrono `Local` zone), and the
identity minted by `Uuid::new_v4()` for a line without a parseable id.  The
informational `created_at`/`updated_at` stamps (further `Utc::now()` reads)
are not modelled. -/
structure DecodeEnv where
  nowUtc : Ndt
  offset : Int
  freshId : List Char

/-- Decoder (src/types.rs `Todo::from_str`): regex match (hard failure on a
non-matching line), trimmed name, best-effort due and recurrence parsing
(failures leave the field absent), id parse with the minted id as fallback,
and the immediate `complete()` call on a line whose checkbox is marked
done. -/
def Todo.from_str (line : List Char) (env : DecodeEnv) : Option Todo :=
  match matchTodoLine line with
  | none => none
  | some fields =>
    let base : Todo :=
      { id := env.freshId
        done := fields.doneChar = 'x'
        due_date := none
        recurence := none
        name := (trimList fields.name).asString }
    let withDue :=
      match fields.due with
      | some dueStr =>
        match parse_human_datetime dueStr env.nowUtc env.offset with
        | some d => { base with due_date := some d }
        | none => base
      | none => base
    let withRecc :=
      match fields.recc with
      | some reccStr =>
        { withDue with
          recurence := parse_reccurence reccStr (shiftSecs env.nowUtc env.offset) }
      | none => withDue
    let withId :=
      match fields.idStr with
      | some idStr =>
        match uuidParse idStr with
        | some parsed => { withRecc with id := parsed }
        | none => withRecc
      | none => withRecc
    some (if withId.done then withId.complete env.offset else withId)

/-- Encoder (src/types.rs `Todo::to_line`): checkbox, name, optional due in
RFC 3339, optional canonical recurrence, and the id, in fixed order. -/
def Todo.to_line (t : Todo) : List Char :=
  "- [".toList ++ [if t.done then 'x' else '_'] ++ "] ".toList ++
    t.name.toList ++
    (match t.due_date with
     | some d => " (due: ".toList ++ printRfc3339 d ++ ")".toList
     | none => []) ++
    (match t.recurence with
     | some r => " (reccurence: ".toList ++ r.as_str ++ ")".toList
     | none => []) ++
    " (id: ".toList ++ t.id ++ ")".toList

/-- Whether a line contains the "(id:" marker (Rust `str::contains`). -/
def containsIdMarker : List Char → Bool
  | [] => false
  | c :: rest => "(id:".toList.isPrefixOf (c :: rest) || containsIdMarker rest

/-- Match of the id-extraction regex `\(id:\s*([0-9a-fA-F-]{36})\)` at the
current position. -/
def matchIdAt (cs : List Char) : Option (List Char) :=
  match stripLit "(id:".toList cs with
  | none => none
  | some rest =>
    let rest2 := rest.dropWhile isWhite
    let idStr := rest2.take 36
    if idStr.length = 36 ∧ idStr.all isIdChar ∧
        (rest2.drop 36).headD ' ' = ')' then
      some idStr
    else none

/-- Leftmost match of the id-extraction regex
(src/storage.rs `validate_todo_content`). -/
def findIdCapture : List Char → Option (List Char)
  | [] => none
  | c :: rest =>
    match matchIdAt (c :: rest) with
    | some r => some r
    | none => findIdCapture rest

/-- Lookup in an id-keyed association map. -/
def lookupId (m : List (List Char × Nat)) (id : List Char) : Option Nat :=
  (m.find? (fun p => p.1 == id)).map (fun p => p.2)

/-- Insert into an id-keyed association map, replacing an existing binding
(`HashMap::insert`). -/
def insertId (m : List (List Char × Nat)) (id : List Char) (n : Nat) :
    List (List Char × Nat) :=
  if (m.find? (fun p => p.1 == id)).isSome then
    m.map (fun p => if p.1 == id then (p.1, n) else p)
  else m ++ [(id, n)]

/-- Line tag of a validation message. -/
def lineTag (n : Nat) : String :=
  "line ".append ((natDigits n).asString.append ": ")

/-- Conflict-marker validation message. -/
def conflictMsg (n : Nat) : String :=
  (lineTag n).append "unresolved git conflict marker"

/-- Missing-id validation message. -/
def missingIdMsg (n : Nat) : String :=
  (lineTag n).append "todo line is missing required id"

/-- Unparseable-line validation message. -/
def parseFailMsg (n : Nat) : String :=
  (lineTag n).append "todo line could not be parsed"

/-- Duplicate-id validation message. -/
def dupMsg (n : Nat) (id : List Char) (prev : Nat) : String :=
  ((lineTag n).append "duplicate id ").append
    (id.asString.append
      (" (first seen on line ".append ((natDigits prev).asString.append ")")))

/-- Id-mismatch validation message. -/
def mismatchMsg (n : Nat) : String :=
  (lineTag n).append "parsed id mismatch, this line may be malformed"

/-- Whether a trimmed line is a git conflict marker line. -/
def isConflictMarker (trimmed : List Char) : Bool :=
  "<<<<<<<".toList.isPrefixOf trimmed || "=======".toList.isPrefixOf trimmed ||
    ">>>>>>>".toList.isPrefixOf trimmed

/-- Line loop of src/storage.rs `validate_todo_content`, with the line number
and the seen-ids map as explicit state.  Ambient system values read while
decoding are shared across lines as `env`. -/
def validateLoop (env : DecodeEnv) :
    List (List Char) → Nat → List (List Char × Nat) → List String
  | [], _, _ => []
  | line :: rest, lineNo, seen =>
    let trimmed := trimLead line
    if isConflictMarker trimmed then
      conflictMsg lineNo :: validateLoop env rest (lineNo + 1) seen
    else if !("- [".toList.isPrefixOf trimmed) then
      validateLoop env rest (lineNo + 1) seen
    else if !containsIdMarker line then
      missingIdMsg lineNo :: validateLoop env rest (lineNo + 1) seen
    else
      match Todo.from_str line env with
      | none => parseFailMsg lineNo :: validateLoop env rest (lineNo + 1) seen
      | some todo =>
        match findIdCapture line with
        | some rawId =>
          match uuidParse rawId with
          | some id =>
            let dupMsgs :=
              match lookupId seen id with
              | some prevLine => [dupMsg lineNo id prevLine]
              | none => []
            let mismatchMsgs := if id ≠ todo.id then [mismatchMsg lineNo] else []
            dupMsgs ++ mismatchMsgs ++
              validateLoop env rest (lineNo + 1) (insertId seen id lineNo)
          | none => validateLoop env rest (lineNo + 1) seen
        | none => validateLoop env rest (lineNo + 1) seen

/-- Insert into an id-keyed todo map, replacing an existing binding
(`HashMap::insert`). -/
def mapInsert (m : List (List Char × Todo)) (id : List Char) (t : Todo) :
    List (List Char × Todo) :=
  if (m.find? (fun p => p.1 == id)).isSome then
    m.map (fun p => if p.1 == id then (p.1, t) else p)
  else m ++ [(id, t)]

/-- Line loop of src/storage.rs `parse_todos_from_content`: lines without the
checkbox marker are skipped, lines that fail to decode (a caught panic in the
source) are skipped, and each decoded todo is inserted by id. -/
def parseLoop (env : DecodeEnv) :
    List (List Char) → List (List Char × Todo) → List (List Char × Todo)
  | [], acc => acc
  | line :: rest, acc =>
    if !("- [".toList.isPrefixOf (trimLead line)) then parseLoop env rest acc
    else
      match Todo.from_str line env with
      | none => parseLoop env rest acc
      | some todo => parseLoop env rest (mapInsert acc todo.id todo)

/-- Split on every newline. -/
def splitNl : List Char → List (List Char)
  | [] => [[]]
  | c :: rest =>
    if c = '\n' then [] :: splitNl rest
    else
      match splitNl rest with
      | t :: ts => (c :: t) :: ts
      | [] => [[c]]

/-- Strip of one trailing carriage return. -/
def stripCr (cs : List Char) : List Char :=
  match cs.getLast? with
  | some '\r' => cs.dropLast
  | _ => cs

/-- Line iteration of Rust `str::lines`: newline-separated, a final newline
producing no trailing empty line, carriage returns stripped. -/
def rustLines (cs : List Char) : List (List Char) :=
  if cs = [] then []
  else
    let parts := splitNl cs
    (if cs.getLast? = some '\n' then parts.dropLast else parts).map stripCr

/-- Document validation (src/storage.rs `validate_todo_content`). -/
def validate_todo_content (content : List Char) (env : DecodeEnv) : List String :=
  validateLoop env (rustLines content) 1 []

/-- Document parse into the id-keyed snapshot
(src/storage.rs `parse_todos_from_content`). -/
def parse_todos_from_content (content : List Char) (env : DecodeEnv) :
    List (List Char × Todo) :=
  parseLoop env (rustLines content) []

/-- Classification of one change (src/diff.rs `ChangeKind`). -/
inductive ChangeKind where
  | Added
  | Updated
  | Deleted
  | Completed
deriving DecidableEq, Repr

/-- One classified change (src/diff.rs `TodoChange`). -/
structure TodoChange where
  id : List Char
  kind : ChangeKind
deriving DecidableEq, Repr

/-- Aggregate change summary (src/diff.rs `ChangeSet`). -/
structure ChangeSet where
  added : Nat
  updated : Nat
  deleted : Nat
  completed : Nat
  changes : List TodoChange
deriving DecidableEq, Repr

/-- Observable-field comparison (src/diff.rs `todos_differ`): done flag, due
date, recurrence and name. -/
def todos_differ (previous current : Todo) : Bool :=
  previous.done != current.done || previous.due_date != current.due_date ||
    previous.recurence != current.recurence || previous.name != current.name

/-- Completion classification (src/diff.rs `is_completion_transition`):
either the done flag turned on, or the record is still not done and its due
date rolled over per the previous record's recurrence. -/
def is_completion_transition (previous current : Todo) (offset : Int) : Bool :=
  if !previous.done && current.done then true
  else
    match previous.recurence, previous.due_date, current.due_date with
    | some prevReccurence, some prevDue, some currDue =>
      !current.done && is_rollover_due_date prevDue currDue prevReccurence offset
    | _, _, _ => false

/-- Key set of a snapshot (the `HashSet` of ids; iteration order carries no
meaning, duplicates collapse). -/
def mapKeys (m : List (List Char × Todo)) : List (List Char) :=
  (m.map (fun p => p.1)).dedup

/-- Lookup in an id-keyed snapshot. -/
def mapLookup (m : List (List Char × Todo)) (id : List Char) : Option Todo :=
  (m.find? (fun p => p.1 == id)).map (fun p => p.2)

/-- Two-snapshot differ (src/diff.rs `semantic_changes`): ids only in the
current snapshot are Added, ids only in the previous one are Deleted, and a
common id whose observable fields differ is Completed when
`is_completion_transition` holds and Updated otherwise; the counts are plain
tallies of the change list. -/
def semantic_changes (previous current : List (List Char × Todo))
    (offset : Int) : ChangeSet :=
  let prevIds := mapKeys previous
  let currIds := mapKeys current
  let addedChanges := (currIds.filter (fun id => !prevIds.contains id)).map
    (fun id => TodoChange.mk id .Added)
  let deletedChanges := (prevIds.filter (fun id => !currIds.contains id)).map
    (fun id => TodoChange.mk id .Deleted)
  let commonIds := prevIds.filter (fun id => currIds.contains id)
  let commonChanges := commonIds.filterMap (fun id =>
    match mapLookup previous id, mapLookup current id with
    | some previousTodo, some currentTodo =>
      if !todos_differ previousTodo currentTodo then none
      else
        some (TodoChange.mk id
          (if is_completion_transition previousTodo currentTodo offset then
            ChangeKind.Completed
          else ChangeKind.Updated))
    | _, _ => none)
  let changes := addedChanges ++ deletedChanges ++ commonChanges
  { added := (changes.filter (fun c => c.kind == ChangeKind.Added)).length
    updated := (changes.filter (fun c => c.kind == ChangeKind.Updated)).length
    deleted := (changes.filter (fun c => c.kind == ChangeKind.Deleted)).length
    completed := (changes.filter (fun c => c.kind == ChangeKind.Completed)).length
    changes := changes }

/-- Conditions under which a name survives the line grammar unchanged: it is
non-empty (the regex requires at least one character), contains no newline
(excluded by `.`), contains no opening parenthesis (so the lazy name capture
cannot stop early at a field-like marker), and is trim-stable (the decoder
trims the captured name). -/
def nameRepresentable (ns : List Char) : Prop :=
  ns ≠ [] ∧ '(' ∉ ns ∧ '\n' ∉ ns ∧ trimList ns = ns

/-- Recurrences whose canonical rendering re-parses to themselves: bare
keywords, an in-range monthly day, and a weekly pattern with a non-empty,
duplicate-free day set other than the full week (a full week renders as bare
"weekly", which re-parses to the current weekday). -/
def reccCanonical : Reccurence → Prop
  | .Daily => True
  | .Yearly => True
  | .Monthly none => True
  | .Monthly (some d) => 1 ≤ d ∧ d ≤ 31
  | .Weekly ds => ds ≠ [] ∧ ds.Nodup ∧ ds.length ≠ 7

/-- Due instants representable in the encoder's four-digit-year RFC 3339
rendering: a valid civil date with year 0..=9999 and an in-range
seconds-of-day count. -/
def dueRepresentable (d : Ndt) : Prop :=
  0 ≤ d.date.year ∧ d.date.year ≤ 9999 ∧ 1 ≤ d.date.month ∧
    d.date.month ≤ 12 ∧ 1 ≤ d.date.day ∧
    d.date.day ≤ daysInMonth d.date.year d.date.month ∧ d.secs < 86400

/-- Identity strings in the canonical form `Uuid`'s `Display` produces:
hyphenated shape and already lowercase. -/
def uuidCanonical (u : List Char) : Prop :=
  uuidShape u = true ∧ lowerList u = u

lemma Ymd.lt_trans {a b c : Ymd} (hab : Ymd.lt a b) (hbc : Ymd.lt b c) :
    Ymd.lt a c := by
  unfold Ymd.lt at *
  omega

lemma Ymd.lt_nextDay (d : Ymd) : Ymd.lt d (nextDay d) := by
  unfold nextDay Ymd.lt
  split
  · dsimp only
    omega
  · split <;> dsimp only <;> omega

lemma Ymd.lt_addDays (d : Ymd) (k : Nat) (hk : 1 ≤ k) :
    Ymd.lt d (addDays d k) := by
  induction k with
  | zero => omega
  | succ n ih =>
    rcases Nat.eq_or_lt_of_le (Nat.one_le_iff_ne_zero.mpr (Nat.succ_ne_zero n)) with h | h
    · have hn : n = 0 := by omega
      subst hn
      simpa [addDays] using Ymd.lt_nextDay d
    · have hn : 1 ≤ n := by omega
      have step : addDays d (n + 1) = nextDay (addDays d n) := by
        simp [addDays, Function.iterate_succ_apply']
      rw [step]
      exact Ymd.lt_trans (ih hn) (Ymd.lt_nextDay (addDays d n))

lemma minDeltaStep_pos (c acc idx : Nat) (h : 1 ≤ acc) :
    1 ≤ minDeltaStep c acc idx := by
  unfold minDeltaStep
  dsimp only
  split <;> first
    | omega
    | (split <;> omega)

lemma foldl_minDeltaStep_pos (c : Nat) (l : List Nat) (acc : Nat) (h : 1 ≤ acc) :
    1 ≤ l.foldl (minDeltaStep c) acc := by
  induction l generalizing acc with
  | nil => simpa
  | cons x xs ih =>
    simpa using ih (minDeltaStep c acc x) (minDeltaStep_pos c acc x h)

lemma daysInMonth_pos_iff (y : Int) (m : Nat) :
    1 ≤ daysInMonth y m ↔ (1 ≤ m ∧ m ≤ 12) := by
  rcases m with _ | _ | _ | _ | _ | _ | _ | _ | _ | _ | _ | _ | _ | m <;>
    simp only [daysInMonth] <;> first
      | omega
      | (split <;> omega)

/-- Any result of `add_months_on_day _ 1 _` is strictly later than the
starting date. -/
lemma lt_of_add_months_on_day {date target : Ymd} {reqDay : Nat}
    (h : add_months_on_day date 1 reqDay = some target) : Ymd.lt date target := by
  simp only [add_months_on_day, Option.bind_eq_bind, Option.bind_eq_some] at h
  obtain ⟨first, hfirst, h⟩ := h
  obtain ⟨tmf, htmf, h⟩ := h
  obtain ⟨lastDay, _, h⟩ := h
  unfold withDay1 at hfirst
  split at hfirst
  case isFalse => exact absurd hfirst (by simp)
  case isTrue hpos =>
    have hm := (daysInMonth_pos_iff date.year date.month).mp hpos
    simp only [Option.some_inj] at hfirst
    subst hfirst
    unfold checkedAddMonths at htmf
    simp only [Option.some_inj] at htmf
    subst htmf
    unfold fromYmd? at h
    split at h
    case isFalse => exact absurd h (by simp)
    case isTrue hvalid =>
      simp only [Option.some_inj] at h
      subst h
      unfold Ymd.lt
      dsimp only
      omega

/-- Any result of `add_months_clamped _ 1` is strictly later than the
starting date. -/
lemma lt_of_add_months_clamped {date target : Ymd}
    (h : add_months_clamped date 1 = some target) : Ymd.lt date target := by
  simp only [add_months_clamped, Option.bind_eq_bind, Option.bind_eq_some] at h
  obtain ⟨first, hfirst, h⟩ := h
  obtain ⟨tmf, htmf, h⟩ := h
  obtain ⟨lastDay, _, h⟩ := h
  unfold withDay1 at hfirst
  split at hfirst
  case isFalse => exact absurd hfirst (by simp)
  case isTrue hpos =>
    have hm := (daysInMonth_pos_iff date.year date.month).mp hpos
    simp only [Option.some_inj] at hfirst
    subst hfirst
    unfold checkedAddMonths at htmf
    simp only [Option.some_inj] at htmf
    subst htmf
    unfold fromYmd? at h
    split at h
    case isFalse => exact absurd h (by simp)
    case isTrue hvalid =>
      simp only [Option.some_inj] at h
      subst h
      unfold Ymd.lt
      dsimp only
      omega

/-- Any result of `add_years_clamped _ 1` is strictly later than the
starting date. -/
lemma lt_of_add_years_clamped {date target : Ymd}
    (h : add_years_clamped date 1 = some target) : Ymd.lt date target := by
  simp only [add_years_clamped, Option.bind_eq_bind, Option.bind_eq_some] at h
  obtain ⟨lastDay, _, h⟩ := h
  unfold fromYmd? at h
  split at h
  case isFalse => exact absurd h (by simp)
  case isTrue hvalid =>
    simp only [Option.some_inj] at h
    subst h
    unfold Ymd.lt
    dsimp only
    omega

/-- The naive next-occurrence computation strictly advances the civil date
and preserves the time of day, hence strictly advances the date-time. -/
theorem next_due_naive_lt (due : Ndt) (p : Reccurence) (next : Ndt)
    (h : next_due_naive due p = some next) : Ndt.lt due next := by
  rcases due with ⟨date, secs⟩
  cases p with
  | Daily =>
    simp only [next_due_naive, Option.some_inj] at h
    subst h
    exact Or.inl (Ymd.lt_addDays date 1 (by omega))
  | Weekly days =>
    simp only [next_due_naive, Option.some_inj] at h
    subst h
    simp only [next_weekly_due]
    split
    · refine Or.inl ?_
      dsimp only
      exact Ymd.lt_addDays date 7 (by omega)
    · refine Or.inl ?_
      dsimp only
      exact Ymd.lt_addDays date _ (foldl_minDeltaStep_pos _ _ 7 (by omega))
  | Monthly od =>
    cases od with
    | some day =>
      simp only [next_due_naive, Option.map_eq_some'] at h
      obtain ⟨target, htarget, hnext⟩ := h
      subst hnext
      exact Or.inl (lt_of_add_months_on_day htarget)
    | none =>
      simp only [next_due_naive, Option.map_eq_some'] at h
      obtain ⟨target, htarget, hnext⟩ := h
      subst hnext
      exact Or.inl (lt_of_add_months_clamped htarget)
  | Yearly =>
    simp only [next_due_naive, Option.map_eq_some'] at h
    obtain ⟨target, htarget, hnext⟩ := h
    subst hnext
    exact Or.inl (lt_of_add_years_clamped htarget)

/-- C3: for every due instant `d` and every recurrence pattern `p` (Daily,
Weekly with any day set, Monthly with or without a specific day, Yearly),
whenever the next-occurrence computation returns a result, that result is
strictly later than `d` in the local calendar order. -/
theorem C3_next_occurrence_strictly_advances (d : Ndt) (p : Reccurence)
    (next : Ndt) (h : next_due_naive d p = some next) : Ndt.lt d next :=
  next_due_naive_lt d p next h

/-- Witness for C3: Monday 2026-02-23 14:00 under the weekly Monday/Thursday
pattern advances to Thursday 2026-02-26 14:00, which is strictly later. -/
theorem C3_next_occurrence_strictly_advances_witness :
    next_due_naive (ndt 2026 2 23 14 0 0) (.Weekly [.Monday, .Thursday]) =
        some (ndt 2026 2 26 14 0 0) ∧
    Ndt.lt (ndt 2026 2 23 14 0 0) (ndt 2026 2 26 14 0 0) :=
  ⟨by decide,
    C3_next_occurrence_strictly_advances (ndt 2026 2 23 14 0 0)
      (.Weekly [.Monday, .Thursday]) (ndt 2026 2 26 14 0 0) (by decide)⟩

/-- C7: monthly next-occurrence computation clamps to the actual last day of
the target month, at the spec's two concrete vectors (ambient local zone
instantiated at UTC, offset 0, as in the repository's tests). -/
theorem C7_monthly_clamps_to_month_end :
    next_due_date_utc (ndt 2026 1 31 10 30 0) (.Monthly none) 0 =
        some (ndt 2026 2 28 10 30 0) ∧
    next_due_date_utc (ndt 2026 1 18 10 30 0) (.Monthly (some 31)) 0 =
        some (ndt 2026 2 28 10 30 0) :=
  ⟨by decide, by decide⟩

/-- C2: `complete()` rolls a recurring task's due date to the computed next
occurrence and leaves done = false when both a recurrence and a due date are
present and recomputation succeeds; it sets done = true when recomputation
fails or when either field is missing. -/
theorem C2_complete_behavior (t : Todo) (offset : Int) :
    (∀ r d nd, t.recurence = some r → t.due_date = some d →
        next_due_date_utc d r offset = some nd →
        (t.complete offset).done = false ∧
          (t.complete offset).due_date = some nd) ∧
    (∀ r d, t.recurence = some r → t.due_date = some d →
        next_due_date_utc d r offset = none →
        (t.complete offset).done = true) ∧
    ((t.recurence = none ∨ t.due_date = none) →
        (t.complete offset).done = true) := by
  refine ⟨?_, ?_, ?_⟩
  · intro r d nd hr hd hn
    simp [Todo.complete, hr, hd, hn]
  · intro r d hr hd hn
    simp [Todo.complete, hr, hd, hn]
  · intro h
    rcases ht : t.recurence with _ | r <;> rcases hd : t.due_date with _ | d <;>
      simp_all [Todo.complete]

/-- Witness for C2: all three branches at concrete records — a pending weekly
task rolls forward and stays not-done; a record whose due date has an invalid
civil month makes recomputation fail, so it is marked done; a record without
a recurrence is marked done. -/
theorem C2_complete_behavior_witness :
    ((Todo.mk [] false (some (ndt 2026 2 23 14 0 0))
        (some (.Weekly [.Monday, .Thursday])) "a").complete 0).done = false ∧
    ((Todo.mk [] false (some (ndt 2026 2 23 14 0 0))
        (some (.Weekly [.Monday, .Thursday])) "a").complete 0).due_date =
      some (ndt 2026 2 26 14 0 0) ∧
    ((Todo.mk [] true (some ⟨⟨2026, 0, 5⟩, 0⟩)
        (some (.Monthly none)) "b").complete 0).done = true ∧
    ((Todo.mk [] false (some (ndt 2026 2 23 14 0 0)) none "c").complete 0).done
      = true := by
  refine ⟨?_, ?_, ?_, ?_⟩
  · exact ((C2_complete_behavior _ 0).1 (.Weekly [.Monday, .Thursday])
      (ndt 2026 2 23 14 0 0) (ndt 2026 2 26 14 0 0) rfl rfl (by decide)).1
  · exact ((C2_complete_behavior _ 0).1 (.Weekly [.Monday, .Thursday])
      (ndt 2026 2 23 14 0 0) (ndt 2026 2 26 14 0 0) rfl rfl (by decide)).2
  · exact (C2_complete_behavior _ 0).2.1 (.Monthly none) ⟨⟨2026, 0, 5⟩, 0⟩
      rfl rfl (by decide)
  · exact (C2_complete_behavior _ 0).2.2 (Or.inl rfl)

lemma parse_day_group_ne_nil {t : List Char} {ds : List DaysOfWeek}
    (h : parse_day_group t = some ds) : ds ≠ [] := by
  unfold parse_day_group at h
  split at h
  · simp only [Option.bind_eq_bind, Option.bind_eq_some] at h
    obtain ⟨s, _, h⟩ := h
    obtain ⟨e, _, h⟩ := h
    simp only [Option.some_inj] at h
    subst h
    simp [expand_day_range, List.range_eq_nil]
  · simp only [Option.map_eq_some'] at h
    obtain ⟨d, _, rfl⟩ := h
    simp

lemma pushNew_length_le (ds : List DaysOfWeek) (acc : List DaysOfWeek) :
    acc.length ≤
      (ds.foldl (fun a d => if a.contains d then a else a ++ [d]) acc).length := by
  induction ds generalizing acc with
  | nil => simp
  | cons d ds ih =>
    simp only [List.foldl_cons]
    refine le_trans ?_ (ih _)
    split
    · exact le_refl _
    · simp

lemma pushNew_nodup (ds : List DaysOfWeek) (acc : List DaysOfWeek) (h : acc.Nodup) :
    (ds.foldl (fun a d => if a.contains d then a else a ++ [d]) acc).Nodup := by
  induction ds generalizing acc with
  | nil => simpa
  | cons d ds ih =>
    simp only [List.foldl_cons]
    apply ih
    split
    · exact h
    case isFalse hc =>
      refine List.Nodup.append h (List.nodup_singleton d) ?_
      intro a ha hd
      simp only [List.mem_singleton] at hd
      subst hd
      exact hc (by simpa using ha)

lemma collectDays_some_length {ts : List (List Char)} {acc days : List DaysOfWeek}
    (h : collectDays ts acc = some days) : acc.length ≤ days.length := by
  induction ts generalizing acc with
  | nil =>
    simp only [collectDays, Option.some_inj] at h
    subst h
    exact le_refl _
  | cons t ts ih =>
    simp only [collectDays] at h
    split at h
    · exact absurd h (by simp)
    · exact le_trans (pushNew_length_le _ _) (ih h)

lemma collectDays_nodup {ts : List (List Char)} {acc days : List DaysOfWeek}
    (hacc : acc.Nodup) (h : collectDays ts acc = some days) : days.Nodup := by
  induction ts generalizing acc with
  | nil =>
    simp only [collectDays, Option.some_inj] at h
    subst h
    exact hacc
  | cons t ts ih =>
    simp only [collectDays] at h
    split at h
    · exact absurd h (by simp)
    · exact ih (pushNew_nodup _ _ hacc) h

lemma collectDays_eq_none_iff (ts : List (List Char)) (acc : List DaysOfWeek) :
    collectDays ts acc = none ↔ ∃ t ∈ ts, parse_day_group t = none := by
  induction ts generalizing acc with
  | nil => simp [collectDays]
  | cons t ts ih =>
    simp only [collectDays]
    cases hg : parse_day_group t with
    | none => simp [hg]
    | some ds => simp [hg, ih]

lemma parse_weekly_days_nodup {raw : List Char} {ds : List DaysOfWeek}
    (h : parse_weekly_days raw = some ds) : ds.Nodup := by
  unfold parse_weekly_days at h
  split at h
  · exact absurd h (by simp)
  case h_2 days hc =>
    split at h
    · exact absurd h (by simp)
    · simp only [Option.some_inj] at h
      subst h
      exact collectDays_nodup List.nodup_nil hc

lemma parse_weekly_days_ne_nil {raw : List Char} {ds : List DaysOfWeek}
    (h : parse_weekly_days raw = some ds) : ds ≠ [] := by
  unfold parse_weekly_days at h
  split at h
  · exact absurd h (by simp)
  case h_2 days hc =>
    split at h
    case isTrue he => exact absurd h (by simp)
    case isFalse he =>
      simp only [Option.some_inj] at h
      subst h
      simpa using he

lemma parse_weekly_days_eq_none_iff (raw : List Char) :
    parse_weekly_days raw = none ↔
      (weeklyTokens raw = [] ∨ ∃ t ∈ weeklyTokens raw, parse_day_group t = none) := by
  constructor
  · intro h
    rcases hc : collectDays (weeklyTokens raw) [] with _ | days
    · exact Or.inr ((collectDays_eq_none_iff _ _).mp hc)
    · simp only [parse_weekly_days, hc] at h
      split at h
      next he =>
        left
        by_contra htok
        rcases hts : weeklyTokens raw with _ | ⟨t, ts⟩
        · exact htok hts
        · rw [hts] at hc
          simp only [collectDays] at hc
          split at hc
          · exact absurd hc (by simp)
          case h_2 ds hg =>
            have hne := parse_day_group_ne_nil hg
            rcases ds with _ | ⟨d, ds2⟩
            · exact hne rfl
            · have h1 : 1 ≤ ((d :: ds2).foldl
                  (fun a s => if a.contains s then a else a ++ [s])
                  ([] : List DaysOfWeek)).length := by
                simp only [List.foldl_cons]
                refine le_trans ?_ (pushNew_length_le ds2 _)
                simp
              have h2 := collectDays_some_length hc
              have h3 : days = [] := by simpa using he
              rw [h3] at h2
              simp only [List.length_nil, Nat.le_zero] at h2
              omega
      next => simp at h
  · intro h
    rcases h with h | h
    · simp [parse_weekly_days, h, collectDays]
    · have hc := (collectDays_eq_none_iff (weeklyTokens raw) []).mpr h
      simp [parse_weekly_days, hc]

set_option maxRecDepth 400000 in
/-- C5 (amended): parsing a weekly day list splits on commas and " and ",
accepts fuzzy-matched single weekdays and forward-walking wrap-around ranges,
collapses duplicates preserving insertion order, and fails exactly when the
token list is empty or contains at least one unparseable token. -/
theorem C5_parse_weekly_days_behavior :
    parse_weekly_days "fri-mon".toList =
        some [.Friday, .Saturday, .Sunday, .Monday] ∧
    parse_weekly_days "monday and tuesday, monday".toList =
        some [.Monday, .Tuesday] ∧
    parse_weekly_days "tuesda".toList = some [.Tuesday] ∧
    (∀ raw ds, parse_weekly_days raw = some ds → ds.Nodup) ∧
    (∀ raw, parse_weekly_days raw = none ↔
      (weeklyTokens raw = [] ∨ ∃ t ∈ weeklyTokens raw, parse_day_group t = none)) := by
  refine ⟨by decide, by decide, by decide, ?_, ?_⟩
  · intro raw ds h
    exact parse_weekly_days_nodup h
  · intro raw
    exact parse_weekly_days_eq_none_iff raw

set_option maxRecDepth 400000 in
/-- Witness for C5: the general conjuncts applied at concrete inputs — the
fri-mon result is duplicate-free, and the empty list fails. -/
theorem C5_parse_weekly_days_behavior_witness :
    ([DaysOfWeek.Friday, .Saturday, .Sunday, .Monday] : List DaysOfWeek).Nodup ∧
    parse_weekly_days [] = none :=
  ⟨C5_parse_weekly_days_behavior.2.2.2.1 "fri-mon".toList _
      C5_parse_weekly_days_behavior.1,
    (C5_parse_weekly_days_behavior.2.2.2.2 []).mpr (Or.inl (by decide))⟩

set_option maxRecDepth 400000 in
/-- Counterexample for C5 as frozen: the list "monday, zzz" is neither empty
nor fully unparseable (its first token parses), yet `parse_weekly_days`
fails, because a single bad token aborts the whole list. -/
theorem C5_counterexample_partial_failure :
    parse_weekly_days "monday, zzz".toList = none ∧
    weeklyTokens "monday, zzz".toList ≠ [] ∧
    (∃ t ∈ weeklyTokens "monday, zzz".toList, parse_day_group t ≠ none) := by
  refine ⟨by decide, by decide, ⟨"monday".toList, by decide, by decide⟩⟩

/-- C9: bare "weekly" parses to the singleton of the supplied local weekday,
and every Weekly pattern produced by the recurrence parser has a non-empty
day set. -/
theorem C9_weekly_day_set_nonempty :
    (∀ nowLocal : Ndt, parse_reccurence "weekly".toList nowLocal =
        some (.Weekly [dayOfWeekOfDate nowLocal.date])) ∧
    (∀ raw nowLocal ds, parse_reccurence raw nowLocal = some (.Weekly ds) →
        ds ≠ []) := by
  constructor
  · intro nowLocal
    rfl
  · intro raw nowLocal ds h
    simp only [parse_reccurence] at h
    split at h
    · simp at h
    split at h
    · simp at h
    split at h
    · simp at h
    split at h
    · simp only [Option.some_inj, Reccurence.Weekly.injEq] at h
      subst h
      simp
    split at h
    · simp only [Option.map_eq_some'] at h
      obtain ⟨days, hdays, hw⟩ := h
      have : days = ds := by
        simpa [Reccurence.Weekly.injEq] using hw
      subst this
      exact parse_weekly_days_ne_nil hdays
    split at h
    · simp only [Option.map_eq_some'] at h
      obtain ⟨d, _, hw⟩ := h
      simp at hw
    · simp at h

set_option maxRecDepth 400000 in
/-- Witness for C9: both conjuncts at concrete inputs — bare "weekly" on
Monday 2026-02-23, and a parsed weekly range whose day set is non-empty. -/
theorem C9_weekly_day_set_nonempty_witness :
    parse_reccurence "weekly".toList (ndt 2026 2 23 12 0 0) =
        some (.Weekly [.Monday]) ∧
    ([DaysOfWeek.Friday, .Saturday, .Sunday, .Monday] : List DaysOfWeek) ≠ [] := by
  constructor
  · have h := C9_weekly_day_set_nonempty.1 (ndt 2026 2 23 12 0 0)
    rw [h]
    decide
  · exact C9_weekly_day_set_nonempty.2 "weekly on fri-mon".toList
      (ndt 2026 2 23 12 0 0) _ (by decide)

/-- C10: decoding a line whose checkbox is marked done and which carries both
a recurrence and a parseable due date immediately applies the recurring
rollover: the returned record is not done and its due date is the computed
next occurrence, not the done flag and original due date written in the
line. -/
theorem C10_decode_done_recurring_rolls (line : List Char) (env : DecodeEnv)
    (fields : LineFields) (dueStr reccStr : List Char) (d nd : Ndt)
    (r : Reccurence)
    (hm : matchTodoLine line = some fields)
    (hx : fields.doneChar = 'x')
    (hdueStr : fields.due = some dueStr)
    (hreccStr : fields.recc = some reccStr)
    (hdue : parse_human_datetime dueStr env.nowUtc env.offset = some d)
    (hrecc : parse_reccurence reccStr (shiftSecs env.nowUtc env.offset) = some r)
    (hnext : next_due_date_utc d r env.offset = some nd) :
    ∃ t, Todo.from_str line env = some t ∧ t.done = false ∧
      t.due_date = some nd := by
  rcases fields with ⟨dc, name, due, recc, idStr⟩
  simp only at hx hdueStr hreccStr
  subst hx hdueStr hreccStr
  rcases idStr with _ | rawId
  · simp only [Todo.from_str, hm, hdue, hrecc]
    refine ⟨_, rfl, ?_⟩
    simp [Todo.complete, hnext]
  · rcases hu : uuidParse rawId with _ | pid <;>
      · simp only [Todo.from_str, hm, hdue, hrecc, hu]
        refine ⟨_, rfl, ?_⟩
        simp [Todo.complete, hnext]

set_option maxRecDepth 1000000 in
/-- Witness for C10: the repository's own example line — a done weekly task
due Monday 2026-02-23 decodes to a pending record due Thursday 2026-02-26. -/
theorem C10_decode_done_recurring_rolls_witness :
    ∃ t, Todo.from_str
        ("- [x] Water plants (due: 2026-02-23T14:00:00Z) " ++
          "(reccurence: weekly on monday, thursday) " ++
          "(id: 123e4567-e89b-12d3-a456-426614174000)").toList
        ⟨ndt 2026 2 23 18 0 0, 0, "00000000-0000-0000-0000-000000000000".toList⟩
        = some t ∧
      t.done = false ∧ t.due_date = some (ndt 2026 2 26 14 0 0) := by
  exact C10_decode_done_recurring_rolls _ _
    ⟨'x', "Water plants".toList, some "2026-02-23T14:00:00Z".toList,
      some "weekly on monday, thursday".toList,
      some "123e4567-e89b-12d3-a456-426614174000".toList⟩
    "2026-02-23T14:00:00Z".toList "weekly on monday, thursday".toList
    (ndt 2026 2 23 14 0 0) (ndt 2026 2 26 14 0 0)
    (.Weekly [.Monday, .Thursday])
    (by decide) rfl rfl rfl (by decide) (by decide) (by decide)

lemma from_str_eq_none_of_no_match {line : List Char} (env : DecodeEnv)
    (h : matchTodoLine line = none) : Todo.from_str line env = none := by
  simp [Todo.from_str, h]

lemma not_conflict_of_checkbox {trimmed : List Char}
    (h : "- [".toList.isPrefixOf trimmed = true) :
    isConflictMarker trimmed = false := by
  rw [List.isPrefixOf_iff_prefix] at h
  obtain ⟨t', rfl⟩ := h
  simp [isConflictMarker, List.isPrefixOf]

/-- C8: a checkbox-prefixed line that does not match the grammar is a hard
per-line decode failure; document validation reports it as a line-tagged
issue and continues with the remaining lines under unchanged duplicate-id
state; document parsing skips it and still processes every other line; and
the whole-document operations are exactly these loops over the document's
lines. -/
theorem C8_bad_lines_isolated :
    (∀ (line : List Char) (env : DecodeEnv), matchTodoLine line = none →
      Todo.from_str line env = none) ∧
    (∀ (env : DecodeEnv) (bad : List Char) (rest : List (List Char))
        (lineNo : Nat) (seen : List (List Char × Nat)),
      "- [".toList.isPrefixOf (trimLead bad) = true →
      containsIdMarker bad = true →
      matchTodoLine bad = none →
      validateLoop env (bad :: rest) lineNo seen =
        parseFailMsg lineNo :: validateLoop env rest (lineNo + 1) seen) ∧
    (∀ (env : DecodeEnv) (bad : List Char) (rest : List (List Char))
        (acc : List (List Char × Todo)),
      matchTodoLine bad = none →
      parseLoop env (bad :: rest) acc = parseLoop env rest acc) ∧
    (∀ (content : List Char) (env : DecodeEnv),
      validate_todo_content content env = validateLoop env (rustLines content) 1 [] ∧
      parse_todos_from_content content env = parseLoop env (rustLines content) []) := by
  refine ⟨?_, ?_, ?_, ?_⟩
  · intro line env h
    exact from_str_eq_none_of_no_match env h
  · intro env bad rest lineNo seen hpre hid hm
    simp only [validateLoop, not_conflict_of_checkbox hpre, hpre, hid,
      from_str_eq_none_of_no_match env hm, Bool.not_true,
      Bool.false_eq_true, if_false]
  · intro env bad rest acc hm
    by_cases hpre : "- [".toList.isPrefixOf (trimLead bad) = true
    · simp only [parseLoop, hpre, from_str_eq_none_of_no_match env hm,
        Bool.not_true, Bool.false_eq_true, if_false]
    · simp only [parseLoop, hpre, Bool.not_false, if_true]
  · intro content env
    exact ⟨rfl, rfl⟩

set_option maxRecDepth 1000000 in
/-- Witness for C8: a document with a malformed checkbox line between two
well-formed lines — validation tags line 2 and still reports line 3's missing
id, and parsing still yields the well-formed todo. -/
theorem C8_bad_lines_isolated_witness :
    Todo.from_str "- [y] bad (id: 123e4567-e89b-12d3-a456-426614174001)".toList
        ⟨ndt 2026 2 23 18 0 0, 0, "00000000-0000-0000-0000-000000000000".toList⟩
      = none ∧
    validateLoop
        ⟨ndt 2026 2 23 18 0 0, 0, "00000000-0000-0000-0000-000000000000".toList⟩
        ["- [y] bad (id: 123e4567-e89b-12d3-a456-426614174001)".toList,
          "- [_] no id".toList] 2 [] =
      [parseFailMsg 2, missingIdMsg 3] := by
  constructor
  · exact C8_bad_lines_isolated.1 _ _ (by decide)
  · rw [C8_bad_lines_isolated.2.1 _ _ _ _ _ (by decide) (by decide) (by decide)]
    decide

/-- C4: a common id whose records differ on the observable fields, with the
current record not done and a due-date transition satisfying `is_rollover`
under the previous record's recurrence, is classified Completed and never
Updated; in particular the spec's weekly Monday/Thursday rollover instance is
classified Completed. -/
theorem C4_rollover_classified_completed :
    (∀ (previous current : List (List Char × Todo)) (offset : Int)
        (id : List Char) (pt ct : Todo) (r : Reccurence) (pd cd : Ndt),
      mapLookup previous id = some pt → mapLookup current id = some ct →
      todos_differ pt ct = true → ct.done = false →
      pt.recurence = some r → pt.due_date = some pd → ct.due_date = some cd →
      is_rollover_due_date pd cd r offset = true →
      TodoChange.mk id .Completed ∈
          (semantic_changes previous current offset).changes ∧
        TodoChange.mk id .Updated ∉
          (semantic_changes previous current offset).changes) ∧
    ((semantic_changes
        [("123e4567-e89b-12d3-a456-426614174000".toList,
          ⟨"123e4567-e89b-12d3-a456-426614174000".toList, false,
            some (ndt 2026 2 23 14 0 0), some (.Weekly [.Monday, .Thursday]),
            "Water plants"⟩)]
        [("123e4567-e89b-12d3-a456-426614174000".toList,
          ⟨"123e4567-e89b-12d3-a456-426614174000".toList, false,
            some (ndt 2026 2 26 14 0 0), some (.Weekly [.Monday, .Thursday]),
            "Water plants"⟩)]
        0).completed = 1 ∧
      (semantic_changes
        [("123e4567-e89b-12d3-a456-426614174000".toList,
          ⟨"123e4567-e89b-12d3-a456-426614174000".toList, false,
            some (ndt 2026 2 23 14 0 0), some (.Weekly [.Monday, .Thursday]),
            "Water plants"⟩)]
        [("123e4567-e89b-12d3-a456-426614174000".toList,
          ⟨"123e4567-e89b-12d3-a456-426614174000".toList, false,
            some (ndt 2026 2 26 14 0 0), some (.Weekly [.Monday, .Thursday]),
            "Water plants"⟩)]
        0).updated = 0) := by
  constructor
  · intro previous current offset id pt ct r pd cd hpl hcl hdiff hdone hr hpd hcd hroll
    have hmemPrev : id ∈ mapKeys previous := by
      unfold mapLookup at hpl
      simp only [Option.map_eq_some'] at hpl
      obtain ⟨p, hp, _⟩ := hpl
      have hpmem := List.find?_some hp
      have hpin := List.mem_of_find?_eq_some hp
      simp only [beq_iff_eq] at hpmem
      subst hpmem
      exact List.mem_dedup.mpr (List.mem_map_of_mem _ hpin)
    have hmemCurr : id ∈ mapKeys current := by
      unfold mapLookup at hcl
      simp only [Option.map_eq_some'] at hcl
      obtain ⟨p, hp, _⟩ := hcl
      have hpmem := List.find?_some hp
      have hpin := List.mem_of_find?_eq_some hp
      simp only [beq_iff_eq] at hpmem
      subst hpmem
      exact List.mem_dedup.mpr (List.mem_map_of_mem _ hpin)
    have hcommon : id ∈ (mapKeys previous).filter
        (fun i => (mapKeys current).contains i) := by
      refine List.mem_filter.mpr ⟨hmemPrev, ?_⟩
      simpa using hmemCurr
    have hct : is_completion_transition pt ct offset = true := by
      unfold is_completion_transition
      rw [hdone]
      simp only [Bool.and_false, Bool.false_eq_true, if_false, hr, hpd, hcd,
        hdone, Bool.not_false, Bool.true_and]
      exact hroll
    have hf : (fun i =>
        match mapLookup previous i, mapLookup current i with
        | some previousTodo, some currentTodo =>
          if !todos_differ previousTodo currentTodo then none
          else
            some (TodoChange.mk i
              (if is_completion_transition previousTodo currentTodo offset then
                ChangeKind.Completed
              else ChangeKind.Updated))
        | _, _ => none) id = some (TodoChange.mk id .Completed) := by
      simp only [hpl, hcl, hdiff, hct, Bool.not_true, Bool.false_eq_true,
        if_false, if_true]
    constructor
    · simp only [semantic_changes, List.mem_append]
      exact Or.inr (List.mem_filterMap.mpr ⟨id, hcommon, hf⟩)
    · simp only [semantic_changes, List.mem_append]
      rintro ((hmem | hmem) | hmem)
      · obtain ⟨a, _, heq⟩ := List.mem_map.mp hmem
        cases heq
      · obtain ⟨a, _, heq⟩ := List.mem_map.mp hmem
        cases heq
      · obtain ⟨a, _, heq⟩ := List.mem_filterMap.mp hmem
        rcases hla : mapLookup previous a with _ | pt2 <;>
          rcases hlb : mapLookup current a with _ | ct2 <;>
          rw [hla] at heq <;> try rw [hlb] at heq
        · simp at heq
        · simp at heq
        · simp at heq
        · simp only at heq
          split at heq
          · exact absurd heq (by simp)
          · simp only [Option.some_inj] at heq
            have hai : a = id := congrArg TodoChange.id heq
            subst hai
            rw [hpl] at hla
            rw [hcl] at hlb
            simp only [Option.some_inj] at hla hlb
            subst hla hlb
            have := congrArg TodoChange.kind heq
            simp only [hct, if_true] at this
            exact absurd this (by simp)
  · constructor <;> decide

set_option maxRecDepth 1000000 in
/-- Witness for C4: the general classification applied to the concrete
singleton snapshots of the spec's rollover example. -/
theorem C4_rollover_classified_completed_witness :
    TodoChange.mk "123e4567-e89b-12d3-a456-426614174000".toList .Completed ∈
      (semantic_changes
        [("123e4567-e89b-12d3-a456-426614174000".toList,
          ⟨"123e4567-e89b-12d3-a456-426614174000".toList, false,
            some (ndt 2026 2 23 14 0 0), some (.Weekly [.Monday, .Thursday]),
            "Water plants"⟩)]
        [("123e4567-e89b-12d3-a456-426614174000".toList,
          ⟨"123e4567-e89b-12d3-a456-426614174000".toList, false,
            some (ndt 2026 2 26 14 0 0), some (.Weekly [.Monday, .Thursday]),
            "Water plants"⟩)]
        0).changes := by
  exact (C4_rollover_classified_completed.1 _ _ 0
    "123e4567-e89b-12d3-a456-426614174000".toList
    ⟨"123e4567-e89b-12d3-a456-426614174000".toList, false,
      some (ndt 2026 2 23 14 0 0), some (.Weekly [.Monday, .Thursday]),
      "Water plants"⟩
    ⟨"123e4567-e89b-12d3-a456-426614174000".toList, false,
      some (ndt 2026 2 26 14 0 0), some (.Weekly [.Monday, .Thursday]),
      "Water plants"⟩
    (.Weekly [.Monday, .Thursday]) (ndt 2026 2 23 14 0 0)
    (ndt 2026 2 26 14 0 0) (by decide) (by decide) (by decide) rfl rfl rfl rfl
    (by decide)).1

/-- Counterexample for C6 as frozen: two core operations read ambient system
state — the date resolver's home offset comes from `Local::now()` and the
next-occurrence computation converts through the ambient `Local` zone — so
with identical explicit arguments but different ambient offsets the results
differ. -/
theorem C6_counterexample_ambient_reads :
    parse_human_datetime "today".toList (ndt 2026 2 23 18 0 0) 0 ≠
      parse_human_datetime "today".toList (ndt 2026 2 23 18 0 0) (-18000) ∧
    next_due_date_utc (ndt 2026 2 23 14 0 0) (.Weekly [.Monday]) 0 ≠
      next_due_date_utc (ndt 2026 2 23 14 0 0) (.Weekly [.Monday]) 39600 :=
  ⟨by decide, by decide⟩

/-- C6 (amended): core operations are deterministic functions of their
explicit arguments together with the ambient values the code reads from the
system; in particular a strict machine-formatted timestamp resolves
independently of both the supplied instant and the ambient offset, and
recurrence parsing reads the ambient clock only for bare "weekly". -/
theorem C6_determinism_relative_to_ambient :
    (∀ (input : List Char) (now₁ now₂ : Ndt) (tz₁ tz₂ : Int) (t : Ndt) (off : Int),
      parseRfc3339 (trimList input) = some (t, off) →
      parse_human_datetime input now₁ tz₁ = parse_human_datetime input now₂ tz₂) ∧
    (∀ (raw : List Char) (now₁ now₂ : Ndt),
      lowerList (trimList raw) ≠ "weekly".toList →
      parse_reccurence raw now₁ = parse_reccurence raw now₂) := by
  constructor
  · intro input now₁ now₂ tz₁ tz₂ t off h
    unfold parse_human_datetime
    rw [h]
  · intro raw now₁ now₂ hne
    unfold parse_reccurence
    simp only []
    split_ifs with h1 h2 h3 h4 h5 h6
    case pos => rfl
    all_goals first
      | rfl
      | exact absurd h4 hne

/-- Witness for C6 (amended): both conjuncts at concrete inputs — an RFC 3339
string resolves identically under two different ambient instants and offsets,
and "daily" parses identically under two different local instants. -/
theorem C6_determinism_relative_to_ambient_witness :
    parse_human_datetime "2026-02-23T14:00:00Z".toList (ndt 2026 2 23 18 0 0) 0 =
      parse_human_datetime "2026-02-23T14:00:00Z".toList (ndt 2030 1 1 0 0 0)
        (-18000) ∧
    parse_reccurence "daily".toList (ndt 2026 2 23 12 0 0) =
      parse_reccurence "daily".toList (ndt 2027 7 1 0 0 0) := by
  constructor
  · exact C6_determinism_relative_to_ambient.1 _ _ _ _ _
      (ndt 2026 2 23 14 0 0) 0 (by decide)
  · exact C6_determinism_relative_to_ambient.2 "daily".toList _ _ (by decide)

lemma asString_toList (s : String) : s.toList.asString = s := by
  rcases s with ⟨data⟩
  rfl

lemma stripLit_self_append (l cs : List Char) : stripLit l (l ++ cs) = some cs := by
  induction l with
  | nil => rfl
  | cons c l ih => simp [stripLit, ih]

lemma trimLead_eq_self {cs : List Char} (h : isWhite (cs.headD 'a') = false) :
    trimLead cs = cs := by
  rcases cs with _ | ⟨c, rest⟩
  · rfl
  · simp only [List.headD_cons] at h
    simp [trimLead, h]

lemma trimList_eq_self {cs : List Char} (h1 : isWhite (cs.headD 'a') = false)
    (h2 : isWhite (cs.reverse.headD 'a') = false) : trimList cs = cs := by
  unfold trimList
  rw [trimLead_eq_self h1, trimLead_eq_self h2, List.reverse_reverse]

lemma trimList_eq_self_of_all {cs : List Char} (h : ∀ c ∈ cs, isWhite c = false) :
    trimList cs = cs := by
  apply trimList_eq_self
  · rcases cs with _ | ⟨c, rest⟩
    · decide
    · exact h c (by simp)
  · rcases hrev : cs.reverse with _ | ⟨c, rest⟩
    · decide
    · refine h c ?_
      have hc : c ∈ cs.reverse := by
        rw [hrev]
        simp
      simpa using hc

lemma trimList_cons_white {c : Char} {cs : List Char} (h : isWhite c = true) :
    trimList (c :: cs) = trimList cs := by
  simp [trimList, trimLead, h]

lemma digitChar_isDigit {k : Nat} (h : k ≤ 9) :
    (Char.ofNat (48 + k)).isDigit = true := by
  interval_cases k <;> decide

lemma digitChar_val {k : Nat} (h : k ≤ 9) : digitVal (Char.ofNat (48 + k)) = k := by
  interval_cases k <;> decide

lemma digitChar_not_white {k : Nat} (h : k ≤ 9) :
    isWhite (Char.ofNat (48 + k)) = false := by
  interval_cases k <;> decide

lemma digitChar_ne_paren {k : Nat} (h : k ≤ 9) : Char.ofNat (48 + k) ≠ ')' := by
  interval_cases k <;> decide

lemma pad2_not_white (n : Nat) : ∀ c ∈ pad2 n, isWhite c = false := by
  intro c hc
  simp only [pad2, List.mem_cons, List.not_mem_nil, or_false] at hc
  rcases hc with rfl | rfl
  · exact digitChar_not_white (Nat.le_of_lt_succ (Nat.mod_lt _ (by omega)))
  · exact digitChar_not_white (Nat.le_of_lt_succ (Nat.mod_lt _ (by omega)))

lemma pad4_not_white (n : Nat) : ∀ c ∈ pad4 n, isWhite c = false := by
  intro c hc
  simp only [pad4, List.mem_cons, List.not_mem_nil, or_false] at hc
  rcases hc with rfl | rfl | rfl | rfl <;>
    exact digitChar_not_white (Nat.le_of_lt_succ (Nat.mod_lt _ (by omega)))

lemma pad2_ne_paren (n : Nat) : ∀ c ∈ pad2 n, c ≠ ')' := by
  intro c hc
  simp only [pad2, List.mem_cons, List.not_mem_nil, or_false] at hc
  rcases hc with rfl | rfl <;>
    exact digitChar_ne_paren (Nat.le_of_lt_succ (Nat.mod_lt _ (by omega)))

lemma pad4_ne_paren (n : Nat) : ∀ c ∈ pad4 n, c ≠ ')' := by
  intro c hc
  simp only [pad4, List.mem_cons, List.not_mem_nil, or_false] at hc
  rcases hc with rfl | rfl | rfl | rfl <;>
    exact digitChar_ne_paren (Nat.le_of_lt_succ (Nat.mod_lt _ (by omega)))

lemma printRfc3339_not_white (t : Ndt) : ∀ c ∈ printRfc3339 t, isWhite c = false := by
  intro c hc
  simp only [printRfc3339, List.mem_append, or_assoc] at hc
  rcases hc with hc | hc | hc | hc | hc | hc | hc | hc | hc | hc | hc | hc
  · exact pad4_not_white _ c hc
  · rw [show "-".toList = ['-'] from rfl] at hc
    simp only [List.mem_singleton] at hc
    subst hc
    decide
  · exact pad2_not_white _ c hc
  · rw [show "-".toList = ['-'] from rfl] at hc
    simp only [List.mem_singleton] at hc
    subst hc
    decide
  · exact pad2_not_white _ c hc
  · rw [show "T".toList = ['T'] from rfl] at hc
    simp only [List.mem_singleton] at hc
    subst hc
    decide
  · exact pad2_not_white _ c hc
  · rw [show ":".toList = [':'] from rfl] at hc
    simp only [List.mem_singleton] at hc
    subst hc
    decide
  · exact pad2_not_white _ c hc
  · rw [show ":".toList = [':'] from rfl] at hc
    simp only [List.mem_singleton] at hc
    subst hc
    decide
  · exact pad2_not_white _ c hc
  · rw [show "+00:00".toList = ['+', '0', '0', ':', '0', '0'] from rfl] at hc
    simp only [List.mem_cons, List.not_mem_nil, or_false] at hc
    rcases hc with rfl | rfl | rfl | rfl | rfl | rfl <;> decide

lemma printRfc3339_ne_paren (t : Ndt) : ∀ c ∈ printRfc3339 t, c ≠ ')' := by
  intro c hc
  simp only [printRfc3339, List.mem_append, or_assoc] at hc
  rcases hc with hc | hc | hc | hc | hc | hc | hc | hc | hc | hc | hc | hc
  · exact pad4_ne_paren _ c hc
  · rw [show "-".toList = ['-'] from rfl] at hc
    simp only [List.mem_singleton] at hc
    subst hc
    decide
  · exact pad2_ne_paren _ c hc
  · rw [show "-".toList = ['-'] from rfl] at hc
    simp only [List.mem_singleton] at hc
    subst hc
    decide
  · exact pad2_ne_paren _ c hc
  · rw [show "T".toList = ['T'] from rfl] at hc
    simp only [List.mem_singleton] at hc
    subst hc
    decide
  · exact pad2_ne_paren _ c hc
  · rw [show ":".toList = [':'] from rfl] at hc
    simp only [List.mem_singleton] at hc
    subst hc
    decide
  · exact pad2_ne_paren _ c hc
  · rw [show ":".toList = [':'] from rfl] at hc
    simp only [List.mem_singleton] at hc
    subst hc
    decide
  · exact pad2_ne_paren _ c hc
  · rw [show "+00:00".toList = ['+', '0', '0', ':', '0', '0'] from rfl] at hc
    simp only [List.mem_cons, List.not_mem_nil, or_false] at hc
    rcases hc with rfl | rfl | rfl | rfl | rfl | rfl <;> decide

lemma printRfc3339_ne_nil (t : Ndt) : printRfc3339 t ≠ [] := by
  simp [printRfc3339, pad4]

lemma parseRfc3339_print (t : Ndt) (h : dueRepresentable t) :
    parseRfc3339 (printRfc3339 t) = some (t, 0) := by
  obtain ⟨hy0, hy9, hm1, hm12, hd1, hdm, hs⟩ := h
  have hyn : t.date.year.toNat ≤ 9999 := by omega
  have hmo : t.date.month ≤ 12 := hm12
  have hda : t.date.day ≤ 31 := by
    have := daysInMonth_pos_iff t.date.year t.date.month
    rcases hm : t.date.month with _ | _ | _ | _ | _ | _ | _ | _ | _ | _ | _ | _ | _ | m
    all_goals rw [hm] at hdm
    all_goals simp only [daysInMonth] at hdm
    all_goals first
      | omega
      | (split at hdm <;> omega)
  simp only [printRfc3339, pad4, pad2, List.cons_append, List.nil_append,
    List.append_assoc]
  rw [show "-".toList = ['-'] from rfl, show "T".toList = ['T'] from rfl,
    show ":".toList = [':'] from rfl,
    show "+00:00".toList = ['+', '0', '0', ':', '0', '0'] from rfl]
  simp only [List.cons_append, List.nil_append]
  unfold parseRfc3339
  have hdig : ∀ k : Nat, (Char.ofNat (48 + k % 10)).isDigit = true := by
    intro k
    exact digitChar_isDigit (Nat.le_of_lt_succ (Nat.mod_lt _ (by omega)))
  have hval : ∀ k : Nat, digitVal (Char.ofNat (48 + k % 10)) = k % 10 := by
    intro k
    exact digitChar_val (Nat.le_of_lt_succ (Nat.mod_lt _ (by omega)))
  simp only [hdig, hval, and_true, true_and, if_true, if_pos]
  rw [show parseOffsetTail ['+', '0', '0', ':', '0', '0'] = some 0 from by decide]
  have hyrec : ((t.date.year.toNat / 1000 % 10 * 10 + t.date.year.toNat / 100 % 10) *
      10 + t.date.year.toNat / 10 % 10) * 10 + t.date.year.toNat % 10 =
      t.date.year.toNat := by omega
  have hmrec : t.date.month / 10 % 10 * 10 + t.date.month % 10 = t.date.month := by
    omega
  have hdrec : t.date.day / 10 % 10 * 10 + t.date.day % 10 = t.date.day := by omega
  have hhrec : t.secs / 3600 / 10 % 10 * 10 + t.secs / 3600 % 10 = t.secs / 3600 := by
    omega
  have hmirec : t.secs / 60 % 60 / 10 % 10 * 10 + t.secs / 60 % 60 % 10 =
      t.secs / 60 % 60 := by omega
  have hssrec : t.secs % 60 / 10 % 10 * 10 + t.secs % 60 % 10 = t.secs % 60 := by
    omega
  simp only [hmrec, hdrec, hhrec, hmirec, hssrec]
  have hyInt : ((((t.date.year.toNat / 1000 % 10 : Nat) : Int) * 10 +
      ((t.date.year.toNat / 100 % 10 : Nat) : Int)) * 10 +
      ((t.date.year.toNat / 10 % 10 : Nat) : Int)) * 10 +
      ((t.date.year.toNat % 10 : Nat) : Int) = t.date.year := by
    push_cast
    omega
  simp only [hyInt]
  have hcond : 1 ≤ t.date.month ∧ t.date.month ≤ 12 ∧ 1 ≤ t.date.day ∧
      t.date.day ≤ daysInMonth t.date.year t.date.month ∧
      t.secs / 3600 ≤ 23 ∧ t.secs / 60 % 60 ≤ 59 ∧ t.secs % 60 ≤ 59 :=
    ⟨hm1, hm12, hd1, hdm, by omega, by omega, by omega⟩
  rw [if_pos hcond]
  have hsecs : t.secs / 3600 * 3600 + t.secs / 60 % 60 * 60 + t.secs % 60 = t.secs := by
    omega
  rw [hsecs]

lemma shiftSecs_zero (t : Ndt) (h : t.secs < 86400) : shiftSecs t 0 = t := by
  unfold shiftSecs
  have h0 : ¬((t.secs : Int) + 0 < 0) := by omega
  have h1 : (t.secs : Int) + 0 < 86400 := by omega
  rw [if_neg h0, if_pos h1]
  simp

lemma stripLit_two_none {lit cs : List Char} {c₁ c₂ : Char} (h : c₂ ≠ '(') :
    stripLit (' ' :: '(' :: lit) (c₁ :: c₂ :: cs) = none := by
  by_cases h₁ : c₁ = ' '
  · subst h₁
    simp [stripLit, h]
  · simp [stripLit, h₁]

lemma matchIdGroup_two_none {c₁ c₂ : Char} {cs : List Char} (h : c₂ ≠ '(') :
    matchIdGroup (c₁ :: c₂ :: cs) = none := by
  unfold matchIdGroup
  rw [show " (id: ".toList = ' ' :: '(' :: "id: ".toList from rfl,
    stripLit_two_none h]
  simp

lemma matchReccGroup_two_none {c₁ c₂ : Char} {cs : List Char} (h : c₂ ≠ '(') :
    matchReccGroup (c₁ :: c₂ :: cs) = none := by
  unfold matchReccGroup
  rw [show " (reccurence: ".toList = ' ' :: '(' :: "reccurence: ".toList from rfl,
    stripLit_two_none h, matchIdGroup_two_none h]
  simp

lemma matchTail_two_none {c₁ c₂ : Char} {cs : List Char} (h : c₂ ≠ '(') :
    matchTail (c₁ :: c₂ :: cs) = none := by
  unfold matchTail
  rw [show " (due: ".toList = ' ' :: '(' :: "due: ".toList from rfl,
    stripLit_two_none h, matchReccGroup_two_none h]
  simp

lemma matchTail_mid_none {n₂ tail₀ : List Char} (hn : n₂ ≠ [])
    (hp : ∀ c ∈ n₂, c ≠ '(') (ht : ∃ ts, tail₀ = ' ' :: ts) :
    matchTail (n₂ ++ tail₀) = none := by
  obtain ⟨ts, rfl⟩ := ht
  rcases n₂ with _ | ⟨c, _ | ⟨c', rest⟩⟩
  · exact absurd rfl hn
  · exact matchTail_two_none (by decide)
  · exact matchTail_two_none (hp c' (by simp))

lemma nameSearch_append {due recc idStr : Option (List Char)} (tail₀ : List Char)
    (ht : ∃ ts, tail₀ = ' ' :: ts)
    (hmt : matchTail tail₀ = some (due, recc, idStr)) :
    ∀ (name acc : List Char), name ≠ [] →
      (∀ c ∈ name, c ≠ '\n') → (∀ c ∈ name, c ≠ '(') →
      nameSearch acc (name ++ tail₀) = some (acc ++ name, due, recc, idStr) := by
  intro name
  induction name with
  | nil => exact fun acc hn _ _ => absurd rfl hn
  | cons c rest ih =>
    intro acc _ hnl hp
    rcases hr : rest with _ | ⟨c', rest'⟩
    · rw [List.singleton_append]
      unfold nameSearch
      rw [if_neg (hnl c (by simp)), hmt]
    · subst hr
      rw [show ((c :: c' :: rest') ++ tail₀) = c :: ((c' :: rest') ++ tail₀) from rfl]
      unfold nameSearch
      rw [if_neg (hnl c (by simp)),
        matchTail_mid_none (by simp) (fun x hx => hp x (by simp [hx])) ht]
      have h2 := ih (acc ++ [c]) (by simp) (fun x hx => hnl x (by simp [hx]))
        (fun x hx => hp x (by simp [hx]))
      rw [List.append_assoc, List.singleton_append] at h2
      exact h2

lemma isHexDigit_isIdChar {c : Char} (h : isHexDigit c = true) : isIdChar c = true := by
  simp only [isHexDigit, Bool.or_eq_true] at h
  simp only [isIdChar, Bool.or_eq_true]
  tauto

lemma uuidShape_length {cs : List Char} (h : uuidShape cs = true) : cs.length = 36 := by
  simp only [uuidShape, Bool.and_eq_true, decide_eq_true_eq] at h
  exact h.1

lemma uuidShape_all_idChar {cs : List Char} (h : uuidShape cs = true) :
    cs.all isIdChar = true := by
  have hlen := uuidShape_length h
  simp only [uuidShape, Bool.and_eq_true, List.all_eq_true, decide_eq_true_eq] at h
  rw [List.all_eq_true]
  intro c hc
  obtain ⟨i, hi, hgc⟩ := List.mem_iff_getElem.mp hc
  have hir : i ∈ List.range 36 := List.mem_range.mpr (by omega)
  have h2 := h.2 i hir
  rw [List.getD_eq_getElem cs ' ' (by omega)] at h2
  split at h2
  · have h3 : cs[i] = '-' := of_decide_eq_true h2
    rw [← hgc, h3]
    decide
  · rw [← hgc]
    exact isHexDigit_isIdChar h2

lemma matchIdGroup_exact {u : List Char} (h : uuidShape u = true) :
    matchIdGroup (" (id: ".toList ++ (u ++ [')'])) = some (some u) := by
  have hlen := uuidShape_length h
  unfold matchIdGroup
  rw [stripLit_self_append]
  have htake : (u ++ [')']).take 36 = u := by
    rw [← hlen]
    exact List.take_left _ _
  have hdrop : (u ++ [')']).drop 36 = [')'] := by
    rw [← hlen]
    exact List.drop_left _ _
  simp only [Option.bind_eq_bind, Option.some_bind, htake, hdrop]
  have hcond : u.length = 36 ∧ u.all isIdChar = true :=
    ⟨hlen, uuidShape_all_idChar h⟩
  rw [if_pos hcond,
    show stripLit ")".toList [')'] = some [] from rfl]
  simp

lemma spanNotParen_no_paren {content : List Char} (h : ∀ c ∈ content, c ≠ ')')
    (rest : List Char) :
    spanNotParen (content ++ ')' :: rest) = (content, ')' :: rest) := by
  induction content with
  | nil => simp [spanNotParen]
  | cons c cs ih =>
    have hc : c ≠ ')' := h c (by simp)
    rw [List.cons_append]
    unfold spanNotParen
    rw [if_neg hc, ih (fun x hx => h x (by simp [hx]))]

lemma takeGroup_exact {content : List Char} (hne : content ≠ [])
    (h : ∀ c ∈ content, c ≠ ')') (rest : List Char) :
    takeGroup (content ++ ')' :: rest) = some (content, rest) := by
  unfold takeGroup
  rw [spanNotParen_no_paren h rest]
  rcases content with _ | ⟨c, cs⟩
  · exact absurd rfl hne
  · rfl

lemma matchReccGroup_exact {content cs : List Char} {r : Option (List Char)}
    (hne : content ≠ []) (hnp : ∀ c ∈ content, c ≠ ')')
    (hid : matchIdGroup cs = some r) :
    matchReccGroup (" (reccurence: ".toList ++ (content ++ ')' :: cs)) =
      some (some content, r) := by
  unfold matchReccGroup
  rw [stripLit_self_append]
  simp only [Option.bind_eq_bind, Option.some_bind]
  rw [takeGroup_exact hne hnp cs]
  simp only [Option.some_bind]
  rw [hid]
  rfl

lemma matchTail_exact {content cs : List Char}
    {p : Option (List Char) × Option (List Char)}
    (hne : content ≠ []) (hnp : ∀ c ∈ content, c ≠ ')')
    (hrecc : matchReccGroup cs = some p) :
    matchTail (" (due: ".toList ++ (content ++ ')' :: cs)) =
      some (some content, p.1, p.2) := by
  unfold matchTail
  rw [stripLit_self_append]
  simp only [Option.bind_eq_bind, Option.some_bind]
  rw [takeGroup_exact hne hnp cs]
  simp only [Option.some_bind]
  rw [hrecc]
  rfl

lemma matchReccGroup_absent {xs : List Char} {r : Option (List Char)}
    (hlit : stripLit " (reccurence: ".toList xs = none)
    (hid : matchIdGroup xs = some r) :
    matchReccGroup xs = some (none, r) := by
  unfold matchReccGroup
  rw [hlit]
  simp only [Option.bind_eq_bind, Option.none_bind]
  rw [hid]
  rfl

lemma matchTail_absent {xs : List Char} {p : Option (List Char) × Option (List Char)}
    (hlit : stripLit " (due: ".toList xs = none)
    (hrecc : matchReccGroup xs = some p) :
    matchTail xs = some (none, p.1, p.2) := by
  unfold matchTail
  rw [hlit]
  simp only [Option.bind_eq_bind, Option.none_bind]
  rw [hrecc]
  rfl

lemma stripLit_due_on_id (xs : List Char) :
    stripLit " (due: ".toList (" (id: ".toList ++ xs) = none := rfl

lemma stripLit_due_on_recc (xs : List Char) :
    stripLit " (due: ".toList (" (reccurence: ".toList ++ xs) = none := rfl

lemma stripLit_recc_on_id (xs : List Char) :
    stripLit " (reccurence: ".toList (" (id: ".toList ++ xs) = none := rfl

lemma as_str_ne_nil (d : DaysOfWeek) : DaysOfWeek.as_str d ≠ [] := by
  cases d <;> decide

lemma as_str_no_paren (d : DaysOfWeek) : ∀ c ∈ DaysOfWeek.as_str d, c ≠ ')' := by
  cases d <;> decide

lemma as_str_no_comma (d : DaysOfWeek) : ∀ c ∈ DaysOfWeek.as_str d, c ≠ ',' := by
  cases d <;> decide

lemma trimList_as_str (d : DaysOfWeek) :
    trimList (DaysOfWeek.as_str d) = DaysOfWeek.as_str d := by
  cases d <;> decide

lemma lowerList_as_str (d : DaysOfWeek) :
    lowerList (DaysOfWeek.as_str d) = DaysOfWeek.as_str d := by
  cases d <;> decide

lemma as_str_last_y (d : DaysOfWeek) :
    (DaysOfWeek.as_str d).reverse.headD 'a' = 'y' := by
  cases d <;> decide

lemma parse_day_group_as_str (d : DaysOfWeek) :
    parse_day_group (DaysOfWeek.as_str d) = some [d] := by
  cases d <;> decide

lemma replaceAndComma_as_str (d : DaysOfWeek) (cs : List Char) :
    replaceAndComma (DaysOfWeek.as_str d ++ cs) =
      DaysOfWeek.as_str d ++ replaceAndComma cs := by
  cases d <;> rfl

lemma replaceAndComma_sep (d : DaysOfWeek) (cs : List Char) :
    replaceAndComma (',' :: ' ' :: (DaysOfWeek.as_str d ++ cs)) =
      ',' :: ' ' :: replaceAndComma (DaysOfWeek.as_str d ++ cs) := by
  cases d <;> rfl

lemma splitComma_comma (cs : List Char) :
    splitComma (',' :: cs) = [] :: splitComma cs := by
  simp [splitComma]

lemma splitComma_cons_no_comma {c : Char} {cs t : List Char} {ts : List (List Char)}
    (hc : c ≠ ',') (h : splitComma cs = t :: ts) :
    splitComma (c :: cs) = (c :: t) :: ts := by
  simp only [splitComma]
  rw [if_neg hc, h]

lemma splitComma_append_no_comma (xs : List Char) :
    ∀ (cs t : List Char) (ts : List (List Char)), (∀ c ∈ xs, c ≠ ',') →
      splitComma cs = t :: ts → splitComma (xs ++ cs) = (xs ++ t) :: ts := by
  induction xs with
  | nil =>
    intro cs t ts _ h
    simpa using h
  | cons x xs ih =>
    intro cs t ts hx h
    rw [List.cons_append]
    rw [splitComma_cons_no_comma (hx x (by simp))
      (ih cs t ts (fun c hc => hx c (by simp [hc])) h)]
    rfl

lemma headD_append_left {l₁ : List Char} (l₂ : List Char) (a : Char)
    (h : l₁ ≠ []) : (l₁ ++ l₂).headD a = l₁.headD a := by
  rcases l₁ with _ | ⟨c, rest⟩
  · exact absurd rfl h
  · rfl

lemma joinComma_shape (d d' : DaysOfWeek) (rest : List DaysOfWeek) :
    joinComma ((d :: d' :: rest).map DaysOfWeek.as_str) =
      DaysOfWeek.as_str d ++
        (',' :: ' ' :: joinComma ((d' :: rest).map DaysOfWeek.as_str)) := by
  show DaysOfWeek.as_str d ++ ", ".toList ++
      joinComma ((d' :: rest).map DaysOfWeek.as_str) = _
  rw [List.append_assoc]
  rfl

lemma join_shape (d : DaysOfWeek) (rest : List DaysOfWeek) :
    ∃ t, joinComma ((d :: rest).map DaysOfWeek.as_str) =
      DaysOfWeek.as_str d ++ t := by
  rcases rest with _ | ⟨d', rest'⟩
  · exact ⟨[], by simp [joinComma]⟩
  · exact ⟨',' :: ' ' :: joinComma ((d' :: rest').map DaysOfWeek.as_str),
      joinComma_shape d d' rest'⟩

lemma join_ne_nil (d : DaysOfWeek) (rest : List DaysOfWeek) :
    joinComma ((d :: rest).map DaysOfWeek.as_str) ≠ [] := by
  obtain ⟨t, ht⟩ := join_shape d rest
  rw [ht]
  simp [as_str_ne_nil d]

lemma join_last_y : ∀ (rest : List DaysOfWeek) (d : DaysOfWeek),
    (joinComma ((d :: rest).map DaysOfWeek.as_str)).reverse.headD 'a' = 'y' := by
  intro rest
  induction rest with
  | nil => intro d; cases d <;> decide
  | cons d' rest' ih =>
    intro d
    rw [joinComma_shape d d' rest', List.reverse_append, List.reverse_cons,
      List.reverse_cons, List.append_assoc, List.append_assoc]
    rw [headD_append_left _ _ (by
      simp only [ne_eq, List.reverse_eq_nil_iff]
      exact join_ne_nil d' rest')]
    exact ih d'

lemma lowerList_append (a b : List Char) :
    lowerList (a ++ b) = lowerList a ++ lowerList b :=
  List.map_append _ a b

lemma lowerList_cons (c : Char) (cs : List Char) :
    lowerList (c :: cs) = c.toLower :: lowerList cs := rfl

lemma lowerList_join : ∀ (rest : List DaysOfWeek) (d : DaysOfWeek),
    lowerList (joinComma ((d :: rest).map DaysOfWeek.as_str)) =
      joinComma ((d :: rest).map DaysOfWeek.as_str) := by
  intro rest
  induction rest with
  | nil =>
    intro d
    show lowerList (DaysOfWeek.as_str d) = DaysOfWeek.as_str d
    exact lowerList_as_str d
  | cons d' rest' ih =>
    intro d
    rw [joinComma_shape d d' rest', lowerList_append, lowerList_cons,
      lowerList_cons, lowerList_as_str d, ih d']
    rfl

lemma join_no_paren : ∀ (rest : List DaysOfWeek) (d : DaysOfWeek),
    ∀ c ∈ joinComma ((d :: rest).map DaysOfWeek.as_str), c ≠ ')' := by
  intro rest
  induction rest with
  | nil =>
    intro d c hc
    exact as_str_no_paren d c hc
  | cons d' rest' ih =>
    intro d c hc
    rw [joinComma_shape d d' rest'] at hc
    rcases List.mem_append.mp hc with hc | hc
    · exact as_str_no_paren d c hc
    · rcases hc with _ | ⟨_, hc⟩
      · decide
      · rcases hc with _ | ⟨_, hc⟩
        · decide
        · exact ih d' c hc

lemma replaceAndComma_join : ∀ (rest : List DaysOfWeek) (d : DaysOfWeek),
    replaceAndComma (joinComma ((d :: rest).map DaysOfWeek.as_str)) =
      joinComma ((d :: rest).map DaysOfWeek.as_str) := by
  intro rest
  induction rest with
  | nil =>
    intro d
    show replaceAndComma (DaysOfWeek.as_str d) = DaysOfWeek.as_str d
    cases d <;> rfl
  | cons d' rest' ih =>
    intro d
    rw [joinComma_shape d d' rest', replaceAndComma_as_str d]
    obtain ⟨t, ht⟩ := join_shape d' rest'
    rw [ht, replaceAndComma_sep d', ← ht, ih d']

lemma splitComma_join : ∀ (rest : List DaysOfWeek) (d : DaysOfWeek),
    splitComma (joinComma ((d :: rest).map DaysOfWeek.as_str)) =
      DaysOfWeek.as_str d :: rest.map (fun x => ' ' :: DaysOfWeek.as_str x) := by
  intro rest
  induction rest with
  | nil =>
    intro d
    show splitComma (DaysOfWeek.as_str d) = [DaysOfWeek.as_str d]
    cases d <;> decide
  | cons d' rest' ih =>
    intro d
    rw [joinComma_shape d d' rest']
    have h₃ : splitComma (' ' :: joinComma ((d' :: rest').map DaysOfWeek.as_str)) =
        (' ' :: DaysOfWeek.as_str d') ::
          rest'.map (fun x => ' ' :: DaysOfWeek.as_str x) :=
      splitComma_cons_no_comma (by decide) (ih d')
    have h₄ : splitComma (',' :: ' ' ::
        joinComma ((d' :: rest').map DaysOfWeek.as_str)) =
        [] :: (' ' :: DaysOfWeek.as_str d') ::
          rest'.map (fun x => ' ' :: DaysOfWeek.as_str x) := by
      rw [splitComma_comma, h₃]
    rw [splitComma_append_no_comma _ _ _ _ (as_str_no_comma d) h₄,
      List.append_nil, List.map_cons]

lemma weeklyTokens_join (d : DaysOfWeek) (rest : List DaysOfWeek) :
    weeklyTokens (joinComma ((d :: rest).map DaysOfWeek.as_str)) =
      (d :: rest).map DaysOfWeek.as_str := by
  unfold weeklyTokens
  rw [replaceAndComma_join rest d, splitComma_join rest d]
  rw [List.map_cons, trimList_as_str d, List.map_map]
  have hmap : rest.map (trimList ∘ fun x => ' ' :: DaysOfWeek.as_str x) =
      rest.map DaysOfWeek.as_str := by
    apply List.map_congr_left
    intro x _
    show trimList (' ' :: DaysOfWeek.as_str x) = DaysOfWeek.as_str x
    rw [trimList_cons_white (by decide), trimList_as_str x]
  rw [hmap]
  rw [List.filter_eq_self.mpr]
  · exact (List.map_cons _ _ _).symm
  · intro a ha
    rcases ha with _ | ⟨_, ha⟩
    · simp [List.isEmpty_eq_true, as_str_ne_nil d]
    · rcases List.mem_map.mp ha with ⟨x, _, rfl⟩
      simp [List.isEmpty_eq_true, as_str_ne_nil x]

lemma collectDays_names : ∀ (post pre : List DaysOfWeek), (pre ++ post).Nodup →
    collectDays (post.map DaysOfWeek.as_str) pre = some (pre ++ post) := by
  intro post
  induction post with
  | nil =>
    intro pre _
    simp [collectDays]
  | cons x post ih =>
    intro pre h
    rw [List.map_cons]
    unfold collectDays
    rw [parse_day_group_as_str x]
    have hx : x ∉ pre := by
      rw [List.nodup_append] at h
      exact fun hmem => h.2.2 hmem (by simp)
    have hcont : pre.contains x = false := by
      rw [List.contains_eq_any_beq]
      rw [List.any_eq_false]
      intro y hy
      rcases eq_or_ne y x with rfl | hne
      · exact absurd hy hx
      · simp [beq_eq_false_iff_ne, Ne.symm hne]
    show collectDays (post.map DaysOfWeek.as_str)
      (List.foldl _ pre [x]) = some (pre ++ x :: post)
    rw [show List.foldl
        (fun a d => if a.contains d = true then a else a ++ [d]) pre [x] =
        if pre.contains x = true then pre else pre ++ [x] from rfl]
    rw [hcont]
    have h2 := ih (pre ++ [x]) (by rwa [List.append_assoc, List.singleton_append])
    rw [List.append_assoc, List.singleton_append] at h2
    simpa using h2

lemma parse_weekly_days_join (d : DaysOfWeek) (rest : List DaysOfWeek)
    (hnd : (d :: rest).Nodup) :
    parse_weekly_days (joinComma ((d :: rest).map DaysOfWeek.as_str)) =
      some (d :: rest) := by
  unfold parse_weekly_days
  rw [weeklyTokens_join d rest, collectDays_names (d :: rest) [] (by simpa using hnd)]
  simp

lemma parse_reccurence_weekly_on (d : DaysOfWeek) (rest : List DaysOfWeek)
    (now : Ndt) (hnd : (d :: rest).Nodup) :
    parse_reccurence
        ("weekly on ".toList ++ joinComma ((d :: rest).map DaysOfWeek.as_str))
        now =
      some (.Weekly (d :: rest)) := by
  have hJne : joinComma ((d :: rest).map DaysOfWeek.as_str) ≠ [] :=
    join_ne_nil d rest
  have hJpos : 1 ≤ (joinComma ((d :: rest).map DaysOfWeek.as_str)).length := by
    rcases hJl : (joinComma ((d :: rest).map DaysOfWeek.as_str)).length with _ | n
    · exact absurd (List.length_eq_zero.mp hJl) hJne
    · omega
  have hnorm : lowerList (trimList ("weekly on ".toList ++
      joinComma ((d :: rest).map DaysOfWeek.as_str))) =
      "weekly on ".toList ++ joinComma ((d :: rest).map DaysOfWeek.as_str) := by
    rw [trimList_eq_self (by rfl) (by
      rw [List.reverse_append,
        headD_append_left _ _ (by simp only [ne_eq, List.reverse_eq_nil_iff]; exact hJne),
        join_last_y rest d]
      decide)]
    rw [lowerList_append, lowerList_join rest d]
    rw [show lowerList ("weekly on ".toList) = "weekly on ".toList from by decide]
  simp only [parse_reccurence]
  rw [hnorm]
  have hlen : ("weekly on ".toList ++
      joinComma ((d :: rest).map DaysOfWeek.as_str)).length =
      10 + (joinComma ((d :: rest).map DaysOfWeek.as_str)).length := by
    rw [List.length_append, show ("weekly on ".toList).length = 10 from rfl]
  have hne5 : ¬("weekly on ".toList ++
      joinComma ((d :: rest).map DaysOfWeek.as_str) = "daily".toList) := fun hc => by
    have h2 := congrArg List.length hc
    rw [hlen, show ("daily".toList).length = 5 from rfl] at h2
    omega
  have hne7 : ¬("weekly on ".toList ++
      joinComma ((d :: rest).map DaysOfWeek.as_str) = "monthly".toList) := fun hc => by
    have h2 := congrArg List.length hc
    rw [hlen, show ("monthly".toList).length = 7 from rfl] at h2
    omega
  have hne6 : ¬("weekly on ".toList ++
      joinComma ((d :: rest).map DaysOfWeek.as_str) = "yearly".toList) := fun hc => by
    have h2 := congrArg List.length hc
    rw [hlen, show ("yearly".toList).length = 6 from rfl] at h2
    omega
  have hne6w : ¬("weekly on ".toList ++
      joinComma ((d :: rest).map DaysOfWeek.as_str) = "weekly".toList) := fun hc => by
    have h2 := congrArg List.length hc
    rw [hlen, show ("weekly".toList).length = 6 from rfl] at h2
    omega
  rw [if_neg hne5, if_neg hne7, if_neg hne6, if_neg hne6w]
  have hpre : "weekly on ".toList.isPrefixOf ("weekly on ".toList ++
      joinComma ((d :: rest).map DaysOfWeek.as_str)) = true := by
    rw [ List.isPrefixOf_iff_prefix]
    exact List.prefix_append _ _
  rw [if_pos hpre]
  rw [show ("weekly on ".toList ++
      joinComma ((d :: rest).map DaysOfWeek.as_str)).drop 10 =
      joinComma ((d :: rest).map DaysOfWeek.as_str) from by
    rw [← show ("weekly on ".toList).length = 10 from rfl]
    exact List.drop_left _ _]
  rw [parse_weekly_days_join d rest hnd]
  rfl

lemma parse_reccurence_as_str (r : Reccurence) (now : Ndt) (h : reccCanonical r) :
    parse_reccurence (Reccurence.as_str r) now = some r := by
  cases r with
  | Daily => rfl
  | Yearly => rfl
  | Monthly o =>
    rcases o with _ | d
    · rfl
    · obtain ⟨h1, h2⟩ := h
      interval_cases d <;> rfl
  | Weekly ds =>
    obtain ⟨hne, hnd, h7⟩ := h
    obtain ⟨d, rest, rfl⟩ := List.exists_cons_of_ne_nil hne
    show parse_reccurence (if (d :: rest).length = 7 then "weekly".toList
      else "weekly on ".toList ++
        joinComma ((d :: rest).map DaysOfWeek.as_str)) now = _
    rw [if_neg h7]
    exact parse_reccurence_weekly_on d rest now hnd

lemma append_len_ne_nil {pre : List Char} (x : List Char) (n : Nat)
    (hn : pre.length = n + 1) : pre ++ x ≠ [] := by
  intro hc
  have h2 := congrArg List.length hc
  rw [List.length_append, hn] at h2
  simp only [List.length_nil] at h2
  omega

lemma as_str_r_ne_nil (r : Reccurence) : Reccurence.as_str r ≠ [] := by
  cases r with
  | Daily => decide
  | Yearly => decide
  | Monthly o =>
    rcases o with _ | d
    · decide
    · exact append_len_ne_nil _ 10 rfl
  | Weekly ds =>
    show (if ds.length = 7 then "weekly".toList
      else "weekly on ".toList ++ joinComma (ds.map DaysOfWeek.as_str)) ≠ []
    split
    · decide
    · exact append_len_ne_nil _ 9 rfl

lemma as_str_r_no_paren (r : Reccurence) (h : reccCanonical r) :
    ∀ c ∈ Reccurence.as_str r, c ≠ ')' := by
  cases r with
  | Daily => decide
  | Yearly => decide
  | Monthly o =>
    rcases o with _ | d
    · decide
    · obtain ⟨h1, h2⟩ := h
      interval_cases d <;> decide
  | Weekly ds =>
    obtain ⟨hne, hnd, h7⟩ := h
    obtain ⟨d, rest, rfl⟩ := List.exists_cons_of_ne_nil hne
    intro c hc
    rw [show Reccurence.as_str (.Weekly (d :: rest)) = "weekly on ".toList ++
        joinComma ((d :: rest).map DaysOfWeek.as_str) from by
      show (if (d :: rest).length = 7 then "weekly".toList else _) = _
      rw [if_neg h7]] at hc
    rcases List.mem_append.mp hc with hc | hc
    · have hW : ∀ x ∈ "weekly on ".toList, x ≠ ')' := by decide
      exact hW c hc
    · exact join_no_paren rest d c hc

lemma matchTodoLine_shape (dc : Char) (ys : List Char) :
    matchTodoLine ("- [".toList ++ dc :: ("] ".toList ++ ys)) =
      if dc = 'x' ∨ dc = '_' then
        match nameSearch [] ys with
        | some (n, du, re, i) => some ⟨dc, n, du, re, i⟩
        | none => none
      else none := rfl

lemma matchTodoLine_to_line (t : Todo)
    (hname : nameRepresentable t.name.toList)
    (hrecc : ∀ r ∈ t.recurence, reccCanonical r)
    (hid : uuidShape t.id = true) :
    matchTodoLine (Todo.to_line t) =
      some ⟨if t.done then 'x' else '_', t.name.toList,
        t.due_date.map printRfc3339, t.recurence.map Reccurence.as_str,
        some t.id⟩ := by
  obtain ⟨hn0, hnp, hnl, hnt⟩ := hname
  have hidm : matchIdGroup (" (id: ".toList ++ (t.id ++ [')'])) = some (some t.id) :=
    matchIdGroup_exact hid
  unfold Todo.to_line
  rw [show (")".toList) = [')'] from rfl]
  have hnl2 : ∀ c ∈ t.name.toList, c ≠ '\n' := fun c hc he => hnl (he ▸ hc)
  have hnp2 : ∀ c ∈ t.name.toList, c ≠ '(' := fun c hc he => hnp (he ▸ hc)
  rcases hd : t.due_date with _ | D <;> rcases hr : t.recurence with _ | R
  · simp only [List.append_assoc, List.singleton_append, List.cons_append,
      List.nil_append]
    rw [matchTodoLine_shape]
    rw [if_pos (by cases t.done <;> simp)]
    rw [nameSearch_append (" (id: ".toList ++ (t.id ++ [')'])) ⟨_, rfl⟩
      (matchTail_absent (stripLit_due_on_id _)
        (matchReccGroup_absent (stripLit_recc_on_id _) hidm))
      t.name.toList [] hn0 hnl2 hnp2]
    rfl
  · simp only [List.append_assoc, List.singleton_append, List.cons_append,
      List.nil_append]
    rw [matchTodoLine_shape]
    rw [if_pos (by cases t.done <;> simp)]
    rw [nameSearch_append (" (reccurence: ".toList ++ (Reccurence.as_str R ++
        ')' :: (" (id: ".toList ++ (t.id ++ [')'])))) ⟨_, rfl⟩
      (matchTail_absent (stripLit_due_on_recc _)
        (matchReccGroup_exact (as_str_r_ne_nil R)
          (as_str_r_no_paren R (hrecc R (by rw [hr]; rfl))) hidm))
      t.name.toList [] hn0 hnl2 hnp2]
    rfl
  · simp only [List.append_assoc, List.singleton_append, List.cons_append,
      List.nil_append]
    rw [matchTodoLine_shape]
    rw [if_pos (by cases t.done <;> simp)]
    rw [nameSearch_append (" (due: ".toList ++ (printRfc3339 D ++
        ')' :: (" (id: ".toList ++ (t.id ++ [')'])))) ⟨_, rfl⟩
      (matchTail_exact (printRfc3339_ne_nil D) (printRfc3339_ne_paren D)
        (matchReccGroup_absent (stripLit_recc_on_id _) hidm))
      t.name.toList [] hn0 hnl2 hnp2]
    rfl
  · simp only [List.append_assoc, List.singleton_append, List.cons_append,
      List.nil_append]
    rw [matchTodoLine_shape]
    rw [if_pos (by cases t.done <;> simp)]
    rw [nameSearch_append (" (due: ".toList ++ (printRfc3339 D ++
        ')' :: (" (reccurence: ".toList ++ (Reccurence.as_str R ++
          ')' :: (" (id: ".toList ++ (t.id ++ [')'])))))) ⟨_, rfl⟩
      (matchTail_exact (printRfc3339_ne_nil D) (printRfc3339_ne_paren D)
        (matchReccGroup_exact (as_str_r_ne_nil R)
          (as_str_r_no_paren R (hrecc R (by rw [hr]; rfl))) hidm))
      t.name.toList [] hn0 hnl2 hnp2]
    rfl

lemma parse_human_datetime_print (t : Ndt) (h : dueRepresentable t)
    (now : Ndt) (tz : Int) :
    parse_human_datetime (printRfc3339 t) now tz = some t := by
  unfold parse_human_datetime
  rw [trimList_eq_self_of_all (printRfc3339_not_white t), parseRfc3339_print t h]
  have hz : shiftSecs t (-(0 : Int)) = t := by
    rw [neg_zero]
    exact shiftSecs_zero t h.2.2.2.2.2.2
  exact congrArg some hz

lemma uuidParse_canonical {u : List Char} (h : uuidCanonical u) :
    uuidParse u = some u := by
  unfold uuidParse
  rw [if_pos h.1, h.2]

lemma from_str_to_line (t : Todo) (env : DecodeEnv)
    (hname : nameRepresentable t.name.toList)
    (hid : uuidCanonical t.id)
    (hdue : ∀ d ∈ t.due_date, dueRepresentable d)
    (hrecc : ∀ r ∈ t.recurence, reccCanonical r)
    (hdone : t.done = true → t.recurence = none ∨ t.due_date = none) :
    Todo.from_str (Todo.to_line t) env = some t := by
  have hmatch := matchTodoLine_to_line t hname hrecc hid.1
  have hnt := hname.2.2.2
  unfold Todo.from_str
  rw [hmatch]
  obtain ⟨tid, tdone, tdue, trecc, tname⟩ := t
  simp only at hnt hdue hrecc hdone ⊢
  have hnt2 : trimList tname.data = tname.data := hnt
  have hasd : (tname.data).asString = tname := asString_toList tname
  rcases tdue with _ | D <;> rcases trecc with _ | R <;> cases tdone
  · simp [uuidParse_canonical hid, hnt2, hasd]
  · simp [uuidParse_canonical hid, hnt2, hasd, Todo.complete]
  · simp [uuidParse_canonical hid, hnt2, hasd,
      parse_reccurence_as_str R (shiftSecs env.nowUtc env.offset) (hrecc R rfl)]
  · simp [uuidParse_canonical hid, hnt2, hasd, Todo.complete,
      parse_reccurence_as_str R (shiftSecs env.nowUtc env.offset) (hrecc R rfl)]
  · simp [uuidParse_canonical hid, hnt2, hasd,
      parse_human_datetime_print D (hdue D rfl) env.nowUtc env.offset]
  · simp [uuidParse_canonical hid, hnt2, hasd, Todo.complete,
      parse_human_datetime_print D (hdue D rfl) env.nowUtc env.offset]
  · simp [uuidParse_canonical hid, hnt2, hasd,
      parse_human_datetime_print D (hdue D rfl) env.nowUtc env.offset,
      parse_reccurence_as_str R (shiftSecs env.nowUtc env.offset) (hrecc R rfl)]
  · rcases hdone rfl with h | h <;> simp at h

/-- C1 (corrected): decoding the encoding recovers a record exactly, in every
ambient decode environment, when its fields are representable in the line
grammar in the precise sense that the name is non-empty, free of parentheses
and newlines, and trimmed; the id is a canonical lowercase hyphenated uuid;
any due date is a valid civil instant with a four-digit year; any recurrence
is canonically rendered (for a weekly pattern: non-empty, duplicate-free, and
not the full week); and the record is not simultaneously done, recurring, and
dated.  The unconditional round-trip of the original claim fails for done
recurring dated records, whose decode immediately rolls the due date
forward. -/
theorem C1_encode_decode_roundtrip (t : Todo) (env : DecodeEnv)
    (hname : nameRepresentable t.name.toList)
    (hid : uuidCanonical t.id)
    (hdue : ∀ d ∈ t.due_date, dueRepresentable d)
    (hrecc : ∀ r ∈ t.recurence, reccCanonical r)
    (hdone : t.done = true → t.recurence = none ∨ t.due_date = none) :
    Todo.from_str (Todo.to_line t) env = some t :=
  from_str_to_line t env hname hid hdue hrecc hdone

set_option maxRecDepth 1000000 in
/-- Witness for C1: a not-done weekly Monday/Thursday todo with a due date
and canonical id round-trips through its encoded line. -/
theorem C1_encode_decode_roundtrip_witness :
    nameRepresentable ("water plants".toList) ∧
    uuidCanonical ("123e4567-e89b-12d3-a456-426614174000".toList) ∧
    dueRepresentable (ndt 2026 2 26 14 0 0) ∧
    reccCanonical (.Weekly [.Monday, .Thursday]) ∧
    Todo.from_str
        (Todo.to_line ⟨"123e4567-e89b-12d3-a456-426614174000".toList, false,
          some (ndt 2026 2 26 14 0 0), some (.Weekly [.Monday, .Thursday]),
          "water plants"⟩)
        ⟨ndt 2026 2 23 18 0 0, 0, "00000000-0000-0000-0000-000000000000".toList⟩ =
      some ⟨"123e4567-e89b-12d3-a456-426614174000".toList, false,
        some (ndt 2026 2 26 14 0 0), some (.Weekly [.Monday, .Thursday]),
        "water plants"⟩ :=
  ⟨by unfold nameRepresentable; decide, by unfold uuidCanonical; decide,
    by unfold dueRepresentable; decide, by unfold reccCanonical; decide,
    C1_encode_decode_roundtrip
      ⟨"123e4567-e89b-12d3-a456-426614174000".toList, false,
        some (ndt 2026 2 26 14 0 0), some (.Weekly [.Monday, .Thursday]),
        "water plants"⟩
      ⟨ndt 2026 2 23 18 0 0, 0, "00000000-0000-0000-0000-000000000000".toList⟩
      (by unfold nameRepresentable; decide)
      (by unfold uuidCanonical; decide)
      (fun d hd => by
        rw [Option.mem_def] at hd
        injection hd with h
        subst h
        unfold dueRepresentable
        decide)
      (fun r hr => by
        rw [Option.mem_def] at hr
        injection hr with h
        subst h
        unfold reccCanonical
        decide)
      (by decide)⟩

set_option maxRecDepth 1000000 in
/-- Counterexample for C1 as stated: a done daily todo with a due date has
every field representable in the grammar, yet decoding its encoded line
yields a record with the done flag cleared and the due date advanced one
day — the decoder completes done recurring lines on sight, so the
unconditional round-trip fails. -/
theorem C1_counterexample_done_recurring :
    nameRepresentable ("water plants".toList) ∧
    uuidCanonical ("123e4567-e89b-12d3-a456-426614174000".toList) ∧
    dueRepresentable (ndt 2026 2 23 14 0 0) ∧
    reccCanonical .Daily ∧
    Todo.from_str
        (Todo.to_line ⟨"123e4567-e89b-12d3-a456-426614174000".toList, true,
          some (ndt 2026 2 23 14 0 0), some .Daily, "water plants"⟩)
        ⟨ndt 2026 2 23 18 0 0, 0, "00000000-0000-0000-0000-000000000000".toList⟩ =
      some ⟨"123e4567-e89b-12d3-a456-426614174000".toList, false,
        some (ndt 2026 2 24 14 0 0), some .Daily, "water plants"⟩ ∧
    (⟨"123e4567-e89b-12d3-a456-426614174000".toList, false,
        some (ndt 2026 2 24 14 0 0), some .Daily, "water plants"⟩ : Todo) ≠
      ⟨"123e4567-e89b-12d3-a456-426614174000".toList, true,
        some (ndt 2026 2 23 14 0 0), some .Daily, "water plants"⟩ := by
  refine ⟨?_, ?_, ?_, ?_, ?_, ?_⟩
  · unfold nameRepresentable
    decide
  · unfold uuidCanonical
    decide
  · unfold dueRepresentable
    decide
  · unfold reccCanonical
    decide
  · decide
  · decide

end TodoMd
